import Mathlib

/-!
# OpenAgent plan execution engine: plan store, output shaper, command runner, orchestrator

A shallow embedding of `golang/internal/core/runtime` (`types.go`,
`constants.go`, `plan_manager.go`, `command_executor.go`, `runtime.go`)
together with the properties of the plan store, of the output shaper, of the
command runner and of the orchestrator that the specification states.

Conventions of the embedding:

* a Go pointer or slice that may be `nil` is an `Option`; `none` is `nil`;
* Go `int` values are `Int`, slice lengths are `Nat`;
* `[]byte` is a list of bytes (`Fin 256`);
* `map[string]*PlanStep` is an association list; every pointer stored in the
  map is fresh (`&copied` in `Replace`), so an update through the pointer is an
  update of the entry under that key;
* a method with a pointer receiver takes the store and returns the new store;
* what is outside the repository (the model backend, the process of a command,
  the clock, the library functions on strings, regular expressions and JSON) is
  a field of `World`; the lines the reader delivers are part of the runtime
  state, and a trace records the calls of `Execute`, `UpdateStatus` and
  `RequestPlan`; writes to the output stream are left out;
* a loop that need not end (`Run`) takes fuel;
* sharing between a snapshot and the store is studied in a second model of
  `Snapshot`, in which pointers and slices are addresses of heap cells.
-/

namespace OpenAgent

/-! ## types.go -/

/-- CommandDraft replicates the shell command contract embedded in the plan schema. -/
structure CommandDraft where
  Reason : String
  Shell : String
  Run : String
  Cwd : String
  TimeoutSec : Int
  FilterRegex : String
  TailLines : Int
  MaxBytes : Int
deriving DecidableEq, Repr

/-- PlanStatus is a Go string type: any string is a value of it. -/
abbrev PlanStatus := String

def PlanPending : PlanStatus := "pending"
def PlanCompleted : PlanStatus := "completed"
def PlanFailed : PlanStatus := "failed"
def PlanAbandoned : PlanStatus := "abandoned"

mutual
/-- PlanStep describes an individual plan entry. -/
inductive PlanStep where
  | mk (ID : String) (Title : String) (Status : PlanStatus)
      (WaitingForID : Option (List String)) (Command : CommandDraft)
      (Observation : Option PlanObservation)
/-- PlanObservation bundles the payload with optional metadata. -/
inductive PlanObservation where
  | mk (ObservationForLLM : Option PlanObservationPayload)
/-- PlanObservationPayload mirrors the JSON payload forwarded back to the model. -/
inductive PlanObservationPayload where
  | mk (Plan : Option (List PlanStep)) (Stdout : String) (Stderr : String)
      (Truncated : Bool) (ExitCode : Option Int) (JSONParseError : Bool)
      (SchemaValidationError : Bool) (ResponseValidationError : Bool)
      (CanceledByHuman : Bool) (OperationCanceled : Bool)
      (Summary : String) (Details : String)
end

def PlanStep.ID : PlanStep → String
  | .mk i _ _ _ _ _ => i

def PlanStep.Title : PlanStep → String
  | .mk _ t _ _ _ _ => t

def PlanStep.Status : PlanStep → PlanStatus
  | .mk _ _ s _ _ _ => s

def PlanStep.WaitingForID : PlanStep → Option (List String)
  | .mk _ _ _ w _ _ => w

def PlanStep.Command : PlanStep → CommandDraft
  | .mk _ _ _ _ c _ => c

def PlanStep.Observation : PlanStep → Option PlanObservation
  | .mk _ _ _ _ _ o => o

def PlanObservation.ObservationForLLM : PlanObservation → Option PlanObservationPayload
  | .mk p => p

def PlanObservationPayload.Plan : PlanObservationPayload → Option (List PlanStep)
  | .mk p _ _ _ _ _ _ _ _ _ _ _ => p

/-- The assignment `payloadCopy.Plan = v` on a copied payload value. -/
def PlanObservationPayload.setPlan (p : PlanObservationPayload)
    (v : Option (List PlanStep)) : PlanObservationPayload :=
  match p with
  | .mk _ so se tr ec je sv rv ch oc su de => .mk v so se tr ec je sv rv ch oc su de

/-- The assignment `step.Status = status`. -/
def PlanStep.setStatus (s : PlanStep) (status : PlanStatus) : PlanStep :=
  match s with
  | .mk i t _ w c o => .mk i t status w c o

/-- The assignment `step.Observation = observation`. -/
def PlanStep.setObservation (s : PlanStep) (o : Option PlanObservation) : PlanStep :=
  match s with
  | .mk i t st w c _ => .mk i t st w c o

/-- The IDs a `for _, waitID := range step.WaitingForID` visits: none for a nil slice. -/
def PlanStep.waitIDs (s : PlanStep) : List String :=
  match s.WaitingForID with
  | none => []
  | some w => w

/-! ## plan_manager.go -/

/-- The Go map `map[string]*PlanStep`, as an association list. -/
abbrev StepMap := List (String × PlanStep)

/-- Lookup `m[k]`: `none` is the `ok == false` (nil pointer) result. -/
def mapGet : StepMap → String → Option PlanStep
  | [], _ => none
  | (k', v) :: rest, k => if k' = k then some v else mapGet rest k

/-- Remove the entry under `k`, if any. -/
def mapErase : StepMap → String → StepMap
  | [], _ => []
  | (k', v) :: rest, k => if k' = k then mapErase rest k else (k', v) :: mapErase rest k

/-- Store `m[k] = &v`: a previous entry under `k` is dropped. -/
def mapSet (m : StepMap) (k : String) (v : PlanStep) : StepMap :=
  (k, v) :: mapErase m k

/-- Write through the pointer stored under `k`. -/
def mapModify : StepMap → String → (PlanStep → PlanStep) → StepMap
  | [], _, _ => []
  | (k', v) :: rest, k, f =>
    if k' = k then (k', f v) :: rest else (k', v) :: mapModify rest k f

/-- PlanManager maintains the merged plan shared across passes. -/
structure PlanManager where
  order : List String
  steps : StepMap

/-- NewPlanManager constructs an empty plan manager. -/
def NewPlanManager : PlanManager :=
  { order := [], steps := [] }

/-- One iteration of the loop of `Replace`. -/
def replaceStep (pm : PlanManager) (step : PlanStep) : PlanManager :=
  { order := pm.order ++ [step.ID], steps := mapSet pm.steps step.ID step }

/-- Replace swaps the current plan with the provided steps. -/
def Replace (_pm : PlanManager) (steps : List PlanStep) : PlanManager :=
  steps.foldl replaceStep { order := [], steps := [] }

/-- The copy `Snapshot` makes of one stored step. -/
def copyStep (step : PlanStep) : PlanStep :=
  let copied := step
  let copied :=
    match step.WaitingForID with
    | none => copied
    | some w => PlanStep.mk copied.ID copied.Title copied.Status (some ([] ++ w))
        copied.Command copied.Observation
  match step.Observation with
  | none => copied
  | some obs =>
    let obsCopy :=
      match obs.ObservationForLLM with
      | none => obs
      | some payload =>
        let payloadCopy :=
          match payload.Plan with
          | none => payload
          | some plan => payload.setPlan (some ([] ++ plan))
        PlanObservation.mk (some payloadCopy)
    copied.setObservation (some obsCopy)

/-- Snapshot returns a deep copy of the plan for external observers. -/
def Snapshot (pm : PlanManager) : List PlanStep :=
  pm.order.foldl
    (fun result id =>
      match mapGet pm.steps id with
      | some step => result ++ [copyStep step]
      | none => result)
    []

/-- The inner loop of `Ready` over `step.WaitingForID`: the final value of `ready`. -/
def depsReady (m : StepMap) : List String → Bool
  | [] => true
  | waitID :: rest =>
    match mapGet m waitID with
    | none => depsReady m rest
    | some dep => if dep.Status ≠ PlanCompleted then false else depsReady m rest

/-- The outer loop of `Ready` over `pm.order`. -/
def readyLoop (m : StepMap) : List String → Option PlanStep
  | [] => none
  | id :: rest =>
    match mapGet m id with
    | none => readyLoop m rest
    | some step =>
      if step.Status ≠ PlanPending then readyLoop m rest
      else if depsReady m step.waitIDs then some step
      else readyLoop m rest

/-- Ready returns the next executable plan step if all dependencies have completed;
`none` is the `(nil, false)` result. -/
def Ready (pm : PlanManager) : Option PlanStep :=
  readyLoop pm.steps pm.order

/-- UpdateStatus updates the step status while preserving metadata. The second
component is the returned error (`none` is `nil`). -/
def UpdateStatus (pm : PlanManager) (id : String) (status : PlanStatus)
    (observation : Option PlanObservation) : PlanManager × Option String :=
  match mapGet pm.steps id with
  | none => (pm, some "plan: unknown step id")
  | some _ =>
    let write := fun (step : PlanStep) =>
      let step := step.setStatus status
      match observation with
      | some o => step.setObservation (some o)
      | none => step
    ({ pm with steps := mapModify pm.steps id write }, none)

/-- The loop of `HasPending` over the map. -/
def hasPendingLoop : StepMap → Bool
  | [] => false
  | (_, step) :: rest => if step.Status = PlanPending then true else hasPendingLoop rest

/-- HasPending reports whether any step is still pending. -/
def HasPending (pm : PlanManager) : Bool :=
  hasPendingLoop pm.steps

/-- The loop of `Completed` over the map, followed by `return len(pm.steps) > 0`. -/
def completedLoop (len : Nat) : StepMap → Bool
  | [] => decide (len > 0)
  | (_, step) :: rest =>
    if step.Status ≠ PlanCompleted then false else completedLoop len rest

/-- Completed reports whether every step finished successfully. -/
def Completed (pm : PlanManager) : Bool :=
  completedLoop pm.steps.length pm.steps

/-- The store states the API can produce: the empty store of `NewPlanManager`,
closed under `Replace` and `UpdateStatus`. -/
inductive Reachable : PlanManager → Prop
  | new : Reachable NewPlanManager
  | replace (pm : PlanManager) (steps : List PlanStep) :
      Reachable pm → Reachable (Replace pm steps)
  | update (pm : PlanManager) (id : String) (status : PlanStatus)
      (observation : Option PlanObservation) :
      Reachable pm → Reachable (UpdateStatus pm id status observation).1

/-- The invariant of the store: the map has one entry per key, every entry is
stored under its own ID, and `order` lists exactly the keys of the map. -/
structure WF (pm : PlanManager) : Prop where
  keys_nodup : (pm.steps.map Prod.fst).Nodup
  id_eq : ∀ k v, (k, v) ∈ pm.steps → v.ID = k
  order_iff : ∀ k, k ∈ pm.order ↔ k ∈ pm.steps.map Prod.fst

/-- Readiness as the specification words it: the status is pending and every ID
in `waitingForId` that resolves to a step of the current plan is completed. -/
def IsReady (pm : PlanManager) (s : PlanStep) : Prop :=
  s.Status = PlanPending ∧
    ∀ id ∈ s.waitIDs, ∀ dep ∈ Snapshot pm, dep.ID = id → dep.Status = PlanCompleted

/-- The test `Ready` applies to a stored step: the status check followed by the
inner loop. -/
def readyTest (m : StepMap) (s : PlanStep) : Bool :=
  decide (s.Status = PlanPending) && depsReady m s.waitIDs

/-- A command descriptor for the concrete plans below. -/
def echoCommand : CommandDraft :=
  { Reason := "", Shell := "/bin/sh", Run := "echo hi", Cwd := "", TimeoutSec := 60,
    FilterRegex := "", TailLines := 200, MaxBytes := 16384 }

/-- A pending step with the given ID and dependency list, no observation. -/
def pendingStep (id : String) (waiting : Option (List String)) : PlanStep :=
  PlanStep.mk id id PlanPending waiting echoCommand none

/-- The plan of the end-to-end scenario: `a`, then `b` waiting for `a`. -/
def planAB : List PlanStep :=
  [pendingStep "a" (some []), pendingStep "b" (some ["a"])]

/-- A plan whose second step waits for an ID that names no step. -/
def planDangling : List PlanStep :=
  [PlanStep.mk "a" "a" PlanCompleted none echoCommand none,
   pendingStep "b" (some ["a", "ghost"])]

/-- An observation with every nested part present: a payload with an exit code
and a copy of a plan. -/
def sampleObservation : PlanObservation :=
  PlanObservation.mk (some (PlanObservationPayload.mk
    (some [pendingStep "x" (some ["y"]), pendingStep "y" none])
    "out" "err" true (some 0) false false false false false "summary" ""))

/-- A plan whose first step carries a nested observation. -/
def planObserved : List PlanStep :=
  [PlanStep.mk "a" "first" PlanCompleted (some []) echoCommand (some sampleObservation),
   PlanStep.mk "b" "second" PlanPending (some ["a"]) echoCommand
     (some (PlanObservation.mk none)),
   pendingStep "c" none]

/-- The step `UpdateStatus(id, status, observation)` is specified to leave in
place of `t`: the new status, the observation when one is given, every other
field as it was. -/
def updatedStep (t : PlanStep) (status : PlanStatus)
    (observation : Option PlanObservation) : PlanStep :=
  PlanStep.mk t.ID t.Title status t.WaitingForID t.Command
    (match observation with
     | some o => some o
     | none => t.Observation)

/-! ## command_executor.go: output shaping -/

/-- One byte of command output. -/
abbrev Byte := Fin 256

/-- The separator `"\n"`. -/
def newline : Byte := 10

/-- The library call `bytes.Split(s, []byte("\n"))` (and `strings.Split(s, "\n")`
on the same bytes): the pieces between newlines, one more than there are newlines. -/
def bytesSplit : List Byte → List (List Byte)
  | [] => [[]]
  | c :: cs =>
    if c = newline then [] :: bytesSplit cs
    else
      match bytesSplit cs with
      | [] => [[c]]
      | l :: ls => (c :: l) :: ls

/-- The library call `bytes.Join(lines, []byte("\n"))` (and `strings.Join`). -/
def bytesJoin : List (List Byte) → List Byte
  | [] => []
  | [l] => l
  | l :: l' :: ls => l ++ newline :: bytesJoin (l' :: ls)

/-- The regular-expression library, a parameter of the embedding:
`compile pattern` is `none` when `regexp.Compile` fails and otherwise the
predicate `rx.MatchString` on a line. -/
abbrev Regexp := String → Option (List Byte → Bool)

/-- Keep the lines of `output` that match `pattern`. -/
def applyFilter (compile : Regexp) (output : List Byte) (pattern : String) : List Byte :=
  if pattern = "" then output
  else
    match compile pattern with
    | none => output
    | some rx => bytesJoin ((bytesSplit output).filter rx)

/-- Keep the trailing `maxBytes` bytes, then the trailing `tailLines` lines. -/
def truncateOutput (output : List Byte) (maxBytes tailLines : Int) : List Byte × Bool :=
  if output.length = 0 then (output, false)
  else
    let capped : List Byte × Bool :=
      if maxBytes > 0 ∧ (output.length : Int) > maxBytes then
        (output.drop (output.length - maxBytes.toNat), true)
      else (output, false)
    let output := capped.1
    let truncated := capped.2
    if tailLines ≤ 0 then (output, truncated)
    else
      let lines := bytesSplit output
      let tailed : List (List Byte) × Bool :=
        if (lines.length : Int) > tailLines then
          (lines.drop (lines.length - tailLines.toNat), true)
        else (lines, truncated)
      (bytesJoin tailed.1, tailed.2)

/-- The composition `Execute` applies to each stream: filter, then truncate. -/
def Shape (compile : Regexp) (raw : List Byte) (pattern : String)
    (maxBytes tailLines : Int) : List Byte × Bool :=
  truncateOutput (applyFilter compile raw pattern) maxBytes tailLines

/-- The number of newline-separated lines of an output, as `bytes.Split` counts them. -/
def lineCount (x : List Byte) : Nat :=
  (bytesSplit x).length

/-- The number of lines of a text in the usual sense: a final newline ends the
last line and does not start another. -/
def textLines (x : List Byte) : Nat :=
  if x = [] then 0
  else if x.getLast? = some newline then x.count newline
  else x.count newline + 1

/-- The specification's byte cap: the trailing `m` bytes when `m > 0` and the
output is longer than `m`, otherwise the output. -/
def lastBytes (m : Int) (x : List Byte) : List Byte :=
  if 0 < m ∧ m < (x.length : Int) then (x.reverse.take m.toNat).reverse else x

/-- Drop the first line of an output together with the newline that ends it. -/
def dropLine : List Byte → List Byte
  | [] => []
  | c :: cs => if c = newline then cs else dropLine cs

/-- Drop the first `k` lines of an output. -/
def dropLines : Nat → List Byte → List Byte
  | 0, x => x
  | k + 1, x => dropLines k (dropLine x)

/-- The specification's line cap: the trailing `t` lines when `t > 0` and
there are more than `t`, otherwise the output. -/
def lastLines (t : Int) (x : List Byte) : List Byte :=
  if 0 < t ∧ t < (x.count newline + 1 : Nat) then
    dropLines (x.count newline + 1 - t.toNat) x
  else x

/-- The fragment of `regexp.Compile` the idempotence counterexample uses: the
pattern `^f` compiles and matches the lines that start with the byte `f`;
any other pattern is taken not to compile. -/
def caretF : Regexp :=
  fun pattern => if pattern = "^f" then some (fun line => line.head? = some 102) else none

/-- The output `fa`, newline, `fb`. -/
def rawFaFb : List Byte := [102, 97, 10, 102, 98]

/-- An output of 300 lines `x`, each but the last followed by a newline. -/
def lines300 : List Byte :=
  bytesJoin (List.replicate 300 [120])

/-! ## constants.go -/

/-- DefaultCommandTailLines matches the JavaScript runtime default tail length. -/
def DefaultCommandTailLines : Int := 200

/-- DefaultCommandMaxBytes mirrors the 16KiB cap used by the TypeScript runtime. -/
def DefaultCommandMaxBytes : Int := 16 * 1024

/-- The last step of a submitted list that carries the ID `id`. -/
def lastWithID (steps : List PlanStep) (id : String) : Option PlanStep :=
  steps.reverse.find? (fun t => decide (t.ID = id))

/-- A submitted list in which the ID `a` occurs twice: first pending, then
completed. -/
def planDuplicate : List PlanStep :=
  [pendingStep "a" (some []),
   PlanStep.mk "a" "again" PlanCompleted none echoCommand none]

/-! ## Go error values -/

/-- The error values the runtime handles: `io.EOF`, an `*exec.ExitError` (with
the value of its `ExitCode()`), an error made from a text (`errors.New`,
`fmt.Errorf` without `%w`), and `fmt.Errorf("text%w", inner)`. -/
inductive GoError where
  | eof
  | exitError (code : Int)
  | message (text : String)
  | wrap (text : String) (inner : GoError)
deriving DecidableEq, Repr

/-- The test `errors.Is(err, io.EOF)`. -/
def GoError.isEOF : GoError → Bool
  | .eof => true
  | .wrap _ inner => inner.isEOF
  | _ => false

/-- The call `errors.As(err, &exitErr)` with `exitErr` of type `*exec.ExitError`
(line 82 of `command_executor.go`): the exit code of the first `*exec.ExitError`
in the chain of a non-nil `err`, `none` when `errors.As` returns false. -/
def GoError.asExitError : GoError → Option Int
  | .exitError code => some code
  | .wrap _ inner => inner.asExitError
  | _ => none

/-- The call `errors.As(err, &exec.ExitError{})` of line 90, made with a non-nil
`err`. The target is a `*exec.ExitError`, so the type `errors.As` checks is the
struct `exec.ExitError`; `Error()` has a pointer receiver, the struct type does
not implement `error`, and `errors.As` panics before it looks at `err`. The
result is the panic message (`Except.error`) or the Boolean returned. -/
def errorsAsExitErrorStruct (_err : GoError) : Except String Bool :=
  Except.error "errors: *target must be interface or implement error"

/-- The text `err.Error()`; `exitText` is `ProcessState.String()`. -/
def GoError.text (exitText : Int → String) : GoError → String
  | .eof => "EOF"
  | .exitError code => exitText code
  | .message text => text
  | .wrap text inner => text ++ inner.text exitText

/-! ## command_executor.go: Execute -/

def PlanObservationPayload.ExitCode : PlanObservationPayload → Option Int
  | .mk _ _ _ _ ec _ _ _ _ _ _ _ => ec

def PlanObservationPayload.Details : PlanObservationPayload → String
  | .mk _ _ _ _ _ _ _ _ _ _ _ de => de

def PlanObservationPayload.Stdout : PlanObservationPayload → String
  | .mk _ so _ _ _ _ _ _ _ _ _ _ => so

def PlanObservationPayload.Truncated : PlanObservationPayload → Bool
  | .mk _ _ _ tr _ _ _ _ _ _ _ _ => tr

/-- The assignment `observation.ExitCode = &code`. -/
def PlanObservationPayload.setExitCode (p : PlanObservationPayload)
    (v : Option Int) : PlanObservationPayload :=
  match p with
  | .mk pl so se tr _ je sv rv ch oc su de => .mk pl so se tr v je sv rv ch oc su de

/-- The assignment `observation.Details = text`. -/
def PlanObservationPayload.setDetails (p : PlanObservationPayload)
    (v : String) : PlanObservationPayload :=
  match p with
  | .mk pl so se tr ec je sv rv ch oc su _ => .mk pl so se tr ec je sv rv ch oc su v

/-- The zero value `PlanObservationPayload{}`. -/
def emptyPayload : PlanObservationPayload :=
  PlanObservationPayload.mk none "" "" false none false false false false false "" ""

/-- What happens to the process of a step: `cmd.Start()` fails, the deadline
fires first in the `select`, or `cmd.Wait()` delivers its result first (`none`
is a nil error, exit status 0). The captured streams come with it. -/
inductive ProcOutcome where
  | startFailed (err : GoError)
  | timedOut (stdout stderr : List Byte)
  | waited (runErr : Option GoError) (stdout stderr : List Byte)

/-- The result of a call: it returns, or it panics with a message. -/
inductive ExecResult where
  | returned (observation : PlanObservationPayload) (err : Option GoError)
  | panicked (message : String)

/-- One chat tool call. -/
structure ToolCall where
  ID : String
  Name : String
  Arguments : String
deriving DecidableEq, Repr

/-- MessageRole is a Go string type. -/
abbrev MessageRole := String

def RoleSystem : MessageRole := "system"
def RoleUser : MessageRole := "user"
def RoleAssistant : MessageRole := "assistant"
def RoleTool : MessageRole := "tool"

/-- ChatMessage stores a single message exchanged with the model. The timestamp
is a number, `0` is the zero time. -/
structure ChatMessage where
  Role : MessageRole
  Content : String
  ToolCallID : String := ""
  Name : String := ""
  Timestamp : Nat := 0
  ToolCalls : List ToolCall := []
deriving DecidableEq, Repr

/-- PlanResponse captures the structured assistant output. -/
structure PlanResponse where
  Message : String
  Plan : List PlanStep

/-- The collaborators of the runtime that are outside the repository or outside
the embedding: the model backend, the operating system, the clock, and the
library functions on strings, regular expressions and JSON. -/
structure World where
  requestPlan : List ChatMessage → Except GoError (PlanResponse × ToolCall)
  process : PlanStep → ProcOutcome
  compile : Regexp
  toGoString : List Byte → String
  formatDuration : Int → String
  exitText : Int → String
  trimSpace : String → String
  toLower : String → String
  equalFold : String → String → Bool
  clock : List ChatMessage → Nat
  buildToolMessage : PlanObservationPayload → Except GoError String
  summarizeObservation : String → PlanObservationPayload → Option GoError → String

/-- Two's-complement wrap-around of a 64-bit signed integer. -/
def wrapInt64 (x : Int) : Int :=
  (x + 2 ^ 63) % 2 ^ 64 - 2 ^ 63

/-- The timeout of a command in nanoseconds:
`time.Duration(TimeoutSec) * time.Second`, one minute when that is not positive. -/
def commandTimeout (timeoutSec : Int) : Int :=
  let timeout := wrapInt64 (timeoutSec * 1000000000)
  if timeout ≤ 0 then 60000000000 else timeout

/-- The part of `Execute` after the `select`: shape both streams, build the
observation and classify `runErr`. -/
def finishExecute (w : World) (step : PlanStep) (runErr : Option GoError)
    (stdout stderr : List Byte) : ExecResult :=
  let filteredStdout := applyFilter w.compile stdout step.Command.FilterRegex
  let filteredStderr := applyFilter w.compile stderr step.Command.FilterRegex
  let shapedStdout :=
    truncateOutput filteredStdout step.Command.MaxBytes step.Command.TailLines
  let shapedStderr :=
    truncateOutput filteredStderr step.Command.MaxBytes step.Command.TailLines
  let truncated := shapedStdout.2 || shapedStderr.2
  let observation := PlanObservationPayload.mk none (w.toGoString shapedStdout.1)
    (w.toGoString shapedStderr.1) truncated none false false false false false "" ""
  let observation :=
    match runErr with
    | none => observation.setExitCode (some 0)
    | some err =>
      match err.asExitError with
      | some code => observation.setExitCode (some code)
      | none => observation
  match runErr with
  | none => ExecResult.returned observation none
  | some err =>
    match errorsAsExitErrorStruct err with
    | Except.error message => ExecResult.panicked message
    | Except.ok isExit =>
      let observation :=
        if !isExit then observation.setDetails (err.text w.exitText) else observation
      ExecResult.returned observation (some err)

/-- Execute runs the provided command and returns stdout/stderr observations. -/
def Execute (w : World) (step : PlanStep) : ExecResult :=
  if w.trimSpace step.Command.Shell = "" ∨ w.trimSpace step.Command.Run = "" then
    ExecResult.returned emptyPayload
      (some (GoError.message ("command: invalid shell or run for step " ++ step.ID)))
  else
    let timeout := commandTimeout step.Command.TimeoutSec
    match w.process step with
    | ProcOutcome.startFailed err =>
      ExecResult.returned emptyPayload (some (GoError.wrap "command: start: " err))
    | ProcOutcome.timedOut stdout stderr =>
      finishExecute w step
        (some (GoError.message ("command: timeout after " ++ w.formatDuration timeout)))
        stdout stderr
    | ProcOutcome.waited runErr stdout stderr =>
      finishExecute w step runErr stdout stderr

/-! ## runtime.go -/

/-- RuntimeOptions control how the runtime runs; the input, the output and the
clock are part of the world. -/
structure RuntimeOptions where
  APIKey : String
  Model : String
  SystemPrompt : String
  SystemPromptAugmentation : String
  AutoApprove : Bool
  NoHuman : Bool
  PlanReminderMessage : String
  NoHumanAutoMessage : String
  UserPrompt : String
deriving DecidableEq, Repr

/-- DefaultPlanReminder is the reminder used when the agent stalls. -/
def DefaultPlanReminder : String :=
  "The plan has pending steps but nothing is executing. Continue the plan or request input if needed."

/-- DefaultNoHumanAutoMessage is sent when the runtime operates without human input. -/
def DefaultNoHumanAutoMessage : String :=
  "No human is currently available. Continue autonomously while respecting safety constraints."

/-- One call of `rt.reader.ReadString`: a whole line with a nil error, or the
text read so far with a non-nil error. -/
inductive ReadResult where
  | line (text : String)
  | failed (text : String) (err : GoError)
deriving DecidableEq, Repr

/-- What a tick does to the outside and to the store, recorded in order: the
call of `Execute` on a step, the call of `UpdateStatus` with the store it leaves,
and the call of `RequestPlan` with the history it sends. -/
inductive Event where
  | executed (step : PlanStep)
  | updated (id : String) (status : PlanStatus) (store : PlanManager)
  | requested (history : List ChatMessage)

/-- Runtime orchestrates the conversation with the model and command execution.
`reader` holds the results the coming calls of `ReadString` deliver (end of
input once it is used up); `trace` records the events so far. Writes to the
output stream are not part of the embedding. -/
structure Runtime where
  options : RuntimeOptions
  planManager : PlanManager
  history : List ChatMessage
  lastToolCall : ToolCall
  reader : List ReadResult
  trace : List Event

/-- The defaults `NewRuntime` fills in. -/
def normalizeOptions (opts : RuntimeOptions) : RuntimeOptions :=
  let options := opts
  let options :=
    if options.SystemPrompt = "" then
      { options with
        SystemPrompt := "You are OpenAgent running inside a Go console application." }
    else options
  let options :=
    if options.PlanReminderMessage = "" then
      { options with PlanReminderMessage := DefaultPlanReminder }
    else options
  let options :=
    if options.NoHumanAutoMessage = "" then
      { options with NoHumanAutoMessage := DefaultNoHumanAutoMessage }
    else options
  if options.UserPrompt = "" then { options with UserPrompt := "\n▷ " } else options

/-- NewRuntime wires together the supporting services based on the provided
options; `input` is what the reader will deliver. -/
def NewRuntime (opts : RuntimeOptions) (input : List ReadResult) : Except GoError Runtime :=
  let options := normalizeOptions opts
  if options.APIKey = "" then
    Except.error (GoError.message "openai: API key is required")
  else if options.Model = "" then
    Except.error (GoError.message "openai: model is required")
  else
    Except.ok
      { options := options, planManager := NewPlanManager, history := [],
        lastToolCall := { ID := "", Name := "", Arguments := "" },
        reader := input, trace := [] }

/-- The call `rt.reader.ReadString`. -/
def readString (rt : Runtime) : ReadResult × Runtime :=
  match rt.reader with
  | [] => (ReadResult.failed "" GoError.eof, rt)
  | r :: rest => (r, { rt with reader := rest })

def appendMessage (w : World) (rt : Runtime) (msg : ChatMessage) : Runtime :=
  let msg := if msg.Timestamp = 0 then { msg with Timestamp := w.clock rt.history } else msg
  { rt with history := rt.history ++ [msg] }

def lastUserMessage (rt : Runtime) : Option ChatMessage :=
  rt.history.reverse.find? (fun m => decide (m.Role = RoleUser))

/-- The result of `queryAssistant`: the runtime after it and the error returned. -/
def queryAssistant (w : World) (rt : Runtime) (userMessage : String) :
    Runtime × Option GoError :=
  let rt :=
    if userMessage ≠ "" then appendMessage w rt { Role := RoleUser, Content := userMessage }
    else rt
  let rt := { rt with trace := rt.trace ++ [Event.requested rt.history] }
  match w.requestPlan rt.history with
  | Except.error err => (rt, some err)
  | Except.ok (plan, toolCall) =>
    let rt := { rt with lastToolCall := toolCall }
    let rt := appendMessage w rt
      { Role := RoleAssistant, Content := plan.Message, ToolCalls := [toolCall] }
    let rt := { rt with planManager := Replace rt.planManager plan.Plan }
    (rt, none)

/-- The result of one tick: `executePlanIfReady` returns `(executed, err)` and
leaves a runtime, or a panic ends the program in the runtime reached. -/
inductive TickResult where
  | returned (executed : Bool) (err : Option GoError) (rt : Runtime)
  | panicked (rt : Runtime)

def TickResult.rt : TickResult → Runtime
  | .returned _ _ rt => rt
  | .panicked rt => rt

/-- The report of an observation to the conversation history (lines 199 to
214): a tool message when a tool call is on record and the observation encodes,
a user message with a summary otherwise. -/
def reportObservation (w : World) (rt : Runtime) (step : PlanStep)
    (observation : PlanObservationPayload) : Runtime :=
  if rt.lastToolCall.ID ≠ "" then
    match w.buildToolMessage observation with
    | Except.ok payload =>
      appendMessage w rt
        { Role := RoleTool, Content := payload, ToolCallID := rt.lastToolCall.ID }
    | Except.error encodeErr =>
      appendMessage w rt
        { Role := RoleUser,
          Content := w.summarizeObservation step.ID observation (some encodeErr) }
  else
    appendMessage w rt
      { Role := RoleUser, Content := w.summarizeObservation step.ID observation none }

/-- The execution part of `executePlanIfReady` (from line 185): run the step,
store the outcome, report it, ask the model. -/
def runStep (w : World) (rt : Runtime) (step : PlanStep) : TickResult :=
  let rt := { rt with trace := rt.trace ++ [Event.executed step] }
  match Execute w step with
  | ExecResult.panicked _ => TickResult.panicked rt
  | ExecResult.returned observation err =>
    let status := if err.isSome then PlanFailed else PlanCompleted
    let updated := UpdateStatus rt.planManager step.ID status
      (some (PlanObservation.mk (some observation)))
    let rt := { rt with
      planManager := updated.1,
      trace := rt.trace ++ [Event.updated step.ID status updated.1] }
    match updated.2 with
    | some text => TickResult.returned true (some (GoError.message text)) rt
    | none =>
      let rt := reportObservation w rt step observation
      let queried := queryAssistant w rt ""
      TickResult.returned true queried.2 queried.1

/-- One tick of the orchestrator. -/
def executePlanIfReady (w : World) (rt : Runtime) : TickResult :=
  match Ready rt.planManager with
  | none => TickResult.returned false none rt
  | some step =>
    if !rt.options.AutoApprove && !rt.options.NoHuman then
      let read := readString rt
      match read.1 with
      | ReadResult.failed _ err =>
        if err.isEOF then TickResult.returned false (some err) read.2
        else TickResult.returned false (some (GoError.wrap "runtime: read approval: " err)) read.2
      | ReadResult.line answer =>
        let answer := w.trimSpace (w.toLower answer)
        if answer ≠ "y" ∧ answer ≠ "yes" then TickResult.returned true none read.2
        else runStep w read.2 step
    else if !rt.options.AutoApprove && rt.options.NoHuman then
      let queried := queryAssistant w rt rt.options.PlanReminderMessage
      TickResult.returned true queried.2 queried.1
    else runStep w rt step

/-- The result of `Run`: it returns an error or nil, a panic ends it, or the
loop is still running when the fuel is used up. -/
inductive RunResult where
  | returned (err : Option GoError) (rt : Runtime)
  | panicked (rt : Runtime)
  | running (rt : Runtime)

/-- The loop of `Run`, at most `fuel` iterations of it. -/
def runLoop (w : World) : Nat → Runtime → RunResult
  | 0, rt => RunResult.running rt
  | fuel + 1, rt =>
    match executePlanIfReady w rt with
    | TickResult.panicked rt => RunResult.panicked rt
    | TickResult.returned executed err rt =>
      match err with
      | some e => RunResult.returned (some e) rt
      | none =>
        if executed then runLoop w fuel rt
        else if rt.options.NoHuman then
          let message := rt.options.NoHumanAutoMessage
          let message :=
            if HasPending rt.planManager then rt.options.PlanReminderMessage else message
          let message :=
            match lastUserMessage rt with
            | some last => if last.Content = message then "" else message
            | none => message
          let queried := queryAssistant w rt message
          match queried.2 with
          | some e => RunResult.returned (some e) queried.1
          | none => runLoop w fuel queried.1
        else
          let read := readString rt
          match read.1 with
          | ReadResult.failed _ e =>
            if e.isEOF then RunResult.returned none read.2
            else RunResult.returned (some (GoError.wrap "runtime: read input: " e)) read.2
          | ReadResult.line line =>
            let rt := read.2
            let line := w.trimSpace line
            if line = "" then runLoop w fuel rt
            else if w.equalFold line "/exit" then RunResult.returned none rt
            else if w.equalFold line "/plan" then runLoop w fuel rt
            else if w.equalFold line "/auto" then
              runLoop w fuel
                { rt with options :=
                    { rt.options with AutoApprove := !rt.options.AutoApprove } }
            else
              let rt := appendMessage w rt { Role := RoleUser, Content := line }
              let queried := queryAssistant w rt ""
              match queried.2 with
              | some e => RunResult.returned (some e) queried.1
              | none => runLoop w fuel queried.1

/-- Run starts the interactive loop until EOF or an explicit exit command. -/
def Run (w : World) (fuel : Nat) (rt : Runtime) : RunResult :=
  let systemPrompt := rt.options.SystemPrompt
  let systemPrompt :=
    if rt.options.SystemPromptAugmentation ≠ "" then
      systemPrompt ++ "\n\n" ++ rt.options.SystemPromptAugmentation
    else systemPrompt
  let rt := appendMessage w rt { Role := RoleSystem, Content := systemPrompt }
  runLoop w fuel rt

def Event.asExecuted : Event → Option PlanStep
  | .executed step => some step
  | _ => none

def Event.asRequested : Event → Option (List ChatMessage)
  | .requested history => some history
  | _ => none

def Event.asUpdated : Event → Option (String × PlanStatus × PlanManager)
  | .updated id status store => some (id, status, store)
  | _ => none

/-- The events a tick added to the trace of the runtime it started from. -/
def newEvents (before : Runtime) (result : TickResult) : List Event :=
  result.rt.trace.drop before.trace.length

/-- The steps whose command a tick ran. -/
def executedSteps (before : Runtime) (result : TickResult) : List PlanStep :=
  (newEvents before result).filterMap Event.asExecuted

/-- The histories a tick sent to the model. -/
def requestedHistories (before : Runtime) (result : TickResult) : List (List ChatMessage) :=
  (newEvents before result).filterMap Event.asRequested

/-- The stores a tick left through `UpdateStatus`, with the ID and status written. -/
def storeUpdates (before : Runtime) (result : TickResult) :
    List (String × PlanStatus × PlanManager) :=
  (newEvents before result).filterMap Event.asUpdated

/-- The ticks of one plan generation, seen from the store: each outcome
(`true` for an error of `Execute`) fails or completes the step `Ready()`
returns, and the generation stops when no step is ready. The result lists the
IDs updated, in order, and the store reached. -/
def runGeneration : List (Bool × PlanObservationPayload) → PlanManager →
    List String × PlanManager
  | [], pm => ([], pm)
  | (failed, observation) :: rest, pm =>
    match Ready pm with
    | none => ([], pm)
    | some step =>
      let status := if failed then PlanFailed else PlanCompleted
      let next := (UpdateStatus pm step.ID status
        (some (PlanObservation.mk (some observation)))).1
      let tail := runGeneration rest next
      (step.ID :: tail.1, tail.2)

/-- The approval condition as the specification words it: auto-approve is on,
or auto-approve and no-human mode are both off and the line read from the human,
lower-cased and trimmed, is `y` or `yes`. -/
def approved (w : World) (rt : Runtime) : Prop :=
  rt.options.AutoApprove = true ∨
    (rt.options.AutoApprove = false ∧ rt.options.NoHuman = false ∧
      ∃ answer, (readString rt).1 = ReadResult.line answer ∧
        (w.trimSpace (w.toLower answer) = "y" ∨ w.trimSpace (w.toLower answer) = "yes"))

/-- A trimming function for the concrete worlds below. -/
def sampleTrimSpace (s : String) : String :=
  String.mk ((s.data.dropWhile Char.isWhitespace).reverse.dropWhile Char.isWhitespace).reverse

/-- A lower-casing function for the concrete worlds below. -/
def sampleToLower (s : String) : String :=
  String.mk (s.data.map Char.toLower)

/-- A concrete world: the process of every step has the given outcome and the
model always gives the given reply. -/
def sampleWorld (outcome : ProcOutcome)
    (reply : Except GoError (PlanResponse × ToolCall)) : World :=
  { requestPlan := fun _ => reply,
    process := fun _ => outcome,
    compile := caretF,
    toGoString := fun bytes => String.mk (bytes.map (fun b => Char.ofNat b.val)),
    formatDuration := fun _ => "1m0s",
    exitText := fun _ => "exit status",
    trimSpace := sampleTrimSpace,
    toLower := sampleToLower,
    equalFold := fun a b => decide (sampleToLower a = sampleToLower b),
    clock := fun history => history.length + 1,
    buildToolMessage := fun _ => Except.ok "observation",
    summarizeObservation := fun id _ _ => id }

/-- A reply of the model backend that fails. -/
def failingReply : Except GoError (PlanResponse × ToolCall) :=
  Except.error (GoError.message "openai: response contained no choices")

/-- A reply of the model backend with an empty plan. -/
def emptyReply : Except GoError (PlanResponse × ToolCall) :=
  Except.ok ({ Message := "done", Plan := [] }, { ID := "call", Name := "plan", Arguments := "" })

/-- Options of an interactive session without auto-approve. -/
def interactiveOptions : RuntimeOptions :=
  { APIKey := "key", Model := "gpt-4.1", SystemPrompt := "system",
    SystemPromptAugmentation := "", AutoApprove := false, NoHuman := false,
    PlanReminderMessage := DefaultPlanReminder,
    NoHumanAutoMessage := DefaultNoHumanAutoMessage, UserPrompt := "> " }

/-- A runtime that holds the plan `a`, `b` and reads the given input. -/
def runtimeAB (options : RuntimeOptions) (input : List ReadResult) : Runtime :=
  { options := options, planManager := Replace NewPlanManager planAB, history := [],
    lastToolCall := { ID := "", Name := "", Arguments := "" }, reader := input, trace := [] }

/-- A runtime with an empty plan that reads the given input. -/
def runtimeIdle (options : RuntimeOptions) (input : List ReadResult) : Runtime :=
  { options := options, planManager := NewPlanManager, history := [],
    lastToolCall := { ID := "", Name := "", Arguments := "" }, reader := input, trace := [] }

/-! ## plan_manager.go: Snapshot with pointers

The definitions above treat a step as a value. What `Snapshot` shares with the
store is only visible with addresses: here a pointer or a slice is the address
of a cell of a heap, and `Snapshot` allocates the cells it copies. -/

/-- An address: the index of a cell of the heap. -/
abbrev Addr := Nat

/-- A `PlanStep` struct: `WaitingForID` is the address of the backing array of
the slice, `Observation` the address of a `PlanObservation`. -/
structure HStep where
  ID : String
  Title : String
  Status : PlanStatus
  WaitingForID : Option Addr
  Command : CommandDraft
  Observation : Option Addr
deriving DecidableEq, Repr

/-- A `PlanObservationPayload` struct: `Plan` is the address of the backing
array of the slice, `ExitCode` the address of an `int`. -/
structure HPayload where
  Plan : Option Addr
  Stdout : String
  Stderr : String
  Truncated : Bool
  ExitCode : Option Addr
  JSONParseError : Bool
  SchemaValidationError : Bool
  ResponseValidationError : Bool
  CanceledByHuman : Bool
  OperationCanceled : Bool
  Summary : String
  Details : String
deriving DecidableEq, Repr

/-- A cell of the heap: an `int`, the backing array of a `[]string`, the backing
array of a `[]PlanStep`, a `PlanObservation` (its one field), a
`PlanObservationPayload`, or a `PlanStep`. -/
inductive Cell where
  | int (value : Int)
  | strings (items : List String)
  | steps (items : List HStep)
  | observation (payload : Option Addr)
  | payload (value : HPayload)
  | step (value : HStep)
deriving DecidableEq, Repr

/-- The heap: cell `a` is at index `a`; nothing is ever freed. -/
abbrev Heap := List Cell

/-- Allocate a new cell: the heap with the cell, and its address. -/
def heapAlloc (h : Heap) (c : Cell) : Heap × Addr :=
  (h ++ [c], h.length)

/-- A write through a pointer. -/
def heapWrite (h : Heap) (a : Addr) (c : Cell) : Heap :=
  h.set a c

/-- The plan manager with pointers: the map holds addresses of `PlanStep` cells. -/
structure HPlanManager where
  order : List String
  steps : List (String × Addr)

/-- The lookup `pm.steps[id]`. -/
def hMapGet : List (String × Addr) → String → Option Addr
  | [], _ => none
  | (k', a) :: rest, k => if k' = k then some a else hMapGet rest k

/-- The copy `append([]string{}, step.WaitingForID...)`: a new backing array. -/
def hCopyStrings (h : Heap) (a : Addr) : Heap × Addr :=
  match h[a]? with
  | some (Cell.strings items) => heapAlloc h (Cell.strings ([] ++ items))
  | _ => (h, a)

/-- The copy `append([]PlanStep{}, payloadCopy.Plan...)`: a new backing array
that holds the same step structs, with the addresses they hold. -/
def hCopySteps (h : Heap) (a : Addr) : Heap × Addr :=
  match h[a]? with
  | some (Cell.steps items) => heapAlloc h (Cell.steps ([] ++ items))
  | _ => (h, a)

/-- The copy `payloadCopy := *step.Observation.ObservationForLLM` with its new
`Plan`, stored where `&payloadCopy` points. -/
def hCopyPayload (h : Heap) (a : Addr) : Heap × Addr :=
  match h[a]? with
  | some (Cell.payload value) =>
    let copied :=
      match value.Plan with
      | none => (h, value)
      | some plan =>
        let plan' := hCopySteps h plan
        (plan'.1, { value with Plan := some plan'.2 })
    heapAlloc copied.1 (Cell.payload copied.2)
  | _ => (h, a)

/-- The copy `obsCopy := *step.Observation` with its new payload, stored where
`&obsCopy` points. -/
def hCopyObservation (h : Heap) (a : Addr) : Heap × Addr :=
  match h[a]? with
  | some (Cell.observation payload) =>
    let copied :=
      match payload with
      | none => (h, none)
      | some p =>
        let p' := hCopyPayload h p
        (p'.1, some p'.2)
    heapAlloc copied.1 (Cell.observation copied.2)
  | _ => (h, a)

/-- The body of the loop of `Snapshot` for one stored step. -/
def hCopyStep (h : Heap) (step : HStep) : Heap × HStep :=
  let waiting :=
    match step.WaitingForID with
    | none => (h, step)
    | some a =>
      let a' := hCopyStrings h a
      (a'.1, { step with WaitingForID := some a'.2 })
  match step.Observation with
  | none => waiting
  | some o =>
    let o' := hCopyObservation waiting.1 o
    (o'.1, { waiting.2 with Observation := some o'.2 })

/-- The loop of `Snapshot` over `pm.order`. -/
def hSnapshotLoop (pm : HPlanManager) : List String → Heap × List HStep → Heap × List HStep
  | [], acc => acc
  | id :: rest, acc =>
    match hMapGet pm.steps id with
    | none => hSnapshotLoop pm rest acc
    | some a =>
      match acc.1[a]? with
      | some (Cell.step step) =>
        let copied := hCopyStep acc.1 step
        hSnapshotLoop pm rest (copied.1, acc.2 ++ [copied.2])
      | _ => hSnapshotLoop pm rest acc

/-- Snapshot with pointers: the heap after the copies and the steps returned. -/
def hSnapshot (h : Heap) (pm : HPlanManager) : Heap × List HStep :=
  hSnapshotLoop pm pm.order (h, [])

/-- The payload a step points to. -/
def hPayloadOf (h : Heap) (s : HStep) : Option HPayload :=
  match s.Observation with
  | none => none
  | some o =>
    match h[o]? with
    | some (Cell.observation (some p)) =>
      match h[p]? with
      | some (Cell.payload value) => some value
      | _ => none
    | _ => none

/-- The value behind `step.Observation.ObservationForLLM.ExitCode`. -/
def hExitCode (h : Heap) (s : HStep) : Option Int :=
  match hPayloadOf h s with
  | none => none
  | some value =>
    match value.ExitCode with
    | none => none
    | some a =>
      match h[a]? with
      | some (Cell.int v) => some v
      | _ => none

/-- The entries of `step.WaitingForID`. -/
def hWaiting (h : Heap) (s : HStep) : Option (List String) :=
  match s.WaitingForID with
  | none => none
  | some a =>
    match h[a]? with
    | some (Cell.strings items) => some items
    | _ => none

/-- The steps of `step.Observation.ObservationForLLM.Plan`. -/
def hNestedPlan (h : Heap) (s : HStep) : List HStep :=
  match hPayloadOf h s with
  | none => []
  | some value =>
    match value.Plan with
    | none => []
    | some a =>
      match h[a]? with
      | some (Cell.steps items) => items
      | _ => []

/-- A heap that holds one stored step `a` (cell 6): it waits for `x` (cell 0) and
has an observation (cell 5) whose payload (cell 4) has the exit code 0 (cell 1)
and a plan copy (cell 3) of one step `n` that waits for `y` (cell 2). -/
def heapA : Heap :=
  [Cell.strings ["x"],
   Cell.int 0,
   Cell.strings ["y"],
   Cell.steps [HStep.mk "n" "nested" PlanPending (some 2) echoCommand none],
   Cell.payload (HPayload.mk (some 3) "out" "" false (some 1) false false false false false
     "" ""),
   Cell.observation (some 4),
   Cell.step (HStep.mk "a" "first" PlanCompleted (some 0) echoCommand (some 5))]

/-- The plan manager over `heapA`: the one step `a`, stored in cell 6. -/
def managerA : HPlanManager :=
  { order := ["a"], steps := [("a", 6)] }

/-- Options of a session with auto-approve on. -/
def autoOptions : RuntimeOptions :=
  { interactiveOptions with AutoApprove := true }

end OpenAgent


namespace OpenAgent

/-! ## The plan store -/

theorem copyStep_eq (step : PlanStep) : copyStep step = step := by
  obtain ⟨i, t, st, w, c, o⟩ := step
  cases w <;> cases o with
  | none => rfl
  | some obs =>
    obtain ⟨p⟩ := obs
    cases p with
    | none => rfl
    | some payload =>
      obtain ⟨pl, so, se, tr, ec, je, sv, rv, ch, oc, su, de⟩ := payload
      cases pl <;> rfl

theorem snapshot_foldl (m : StepMap) (order : List String) (acc : List PlanStep) :
    order.foldl
        (fun result id =>
          match mapGet m id with
          | some step => result ++ [copyStep step]
          | none => result)
        acc
      = acc ++ order.filterMap (mapGet m) := by
  induction order generalizing acc with
  | nil => simp
  | cons id rest ih =>
    simp only [List.foldl_cons, ih, List.filterMap_cons]
    cases h : mapGet m id with
    | none => rfl
    | some step => simp [copyStep_eq]

theorem snapshot_eq (pm : PlanManager) :
    Snapshot pm = pm.order.filterMap (mapGet pm.steps) := by
  simp [Snapshot, snapshot_foldl]

theorem depsReady_iff (m : StepMap) (ws : List String) :
    depsReady m ws = true ↔
      ∀ id ∈ ws, ∀ dep, mapGet m id = some dep → dep.Status = PlanCompleted := by
  induction ws with
  | nil => simp [depsReady]
  | cons w rest ih =>
    cases h : mapGet m w with
    | none => simp [depsReady, h, ih]
    | some dep =>
      by_cases hc : dep.Status = PlanCompleted
      · simp [depsReady, h, hc, ih]
      · simp [depsReady, h, hc]

/-! ### The map -/

theorem mapGet_mem {m : StepMap} {k : String} {v : PlanStep}
    (h : mapGet m k = some v) : (k, v) ∈ m := by
  induction m with
  | nil => simp [mapGet] at h
  | cons kv rest ih =>
    obtain ⟨k', v'⟩ := kv
    by_cases hk : k' = k
    · simp [mapGet, hk] at h
      simp [hk, h]
    · simp [mapGet, hk] at h
      exact List.mem_cons_of_mem _ (ih h)

theorem mapGet_eq_none_iff (m : StepMap) (k : String) :
    mapGet m k = none ↔ k ∉ m.map Prod.fst := by
  induction m with
  | nil => simp [mapGet]
  | cons kv rest ih =>
    obtain ⟨k', v'⟩ := kv
    by_cases hk : k' = k
    · simp [mapGet, hk]
    · simp only [mapGet, hk, if_false, ih, List.map_cons, List.mem_cons, not_or]
      constructor
      · intro h
        exact ⟨fun e => hk e.symm, h⟩
      · intro h
        exact h.2

theorem mapGet_of_mem {m : StepMap} (hnd : (m.map Prod.fst).Nodup) {k : String}
    {v : PlanStep} (h : (k, v) ∈ m) : mapGet m k = some v := by
  induction m with
  | nil => cases h
  | cons kv rest ih =>
    obtain ⟨k', v'⟩ := kv
    rw [List.map_cons, List.nodup_cons] at hnd
    rcases List.mem_cons.1 h with heq | hmem
    · cases heq
      simp [mapGet]
    · have hne : k' ≠ k := by
        intro e
        apply hnd.1
        rw [e]
        exact List.mem_map.2 ⟨(k, v), hmem, rfl⟩
      simp [mapGet, hne, ih hnd.2 hmem]

theorem mapGet_mapErase (m : StepMap) (k k' : String) (h : k' ≠ k) :
    mapGet (mapErase m k) k' = mapGet m k' := by
  induction m with
  | nil => rfl
  | cons kv rest ih =>
    obtain ⟨k₀, v₀⟩ := kv
    by_cases h₀ : k₀ = k
    · have : k₀ ≠ k' := by
        rw [h₀]
        exact fun e => h e.symm
      simp only [mapErase, h₀, if_true, mapGet, ih]
      rw [if_neg (by rw [← h₀]; exact this)]
    · by_cases h₁ : k₀ = k'
      · subst h₁
        simp only [mapErase, h₀, if_false, mapGet, if_true]
      · simp only [mapErase, h₀, if_false, mapGet, h₁, ih]

theorem mapGet_mapSet (m : StepMap) (k k' : String) (v : PlanStep) :
    mapGet (mapSet m k v) k' = if k = k' then some v else mapGet m k' := by
  by_cases h : k = k'
  · simp only [mapSet, mapGet, h, if_true]
  · have h' : k' ≠ k := fun e => h e.symm
    simp only [mapSet, mapGet, h, if_false]
    exact mapGet_mapErase m k k' h'

theorem mapGet_mapModify (m : StepMap) (k k' : String) (f : PlanStep → PlanStep) :
    mapGet (mapModify m k f) k' =
      if k' = k then (mapGet m k).map f else mapGet m k' := by
  induction m with
  | nil => simp [mapModify, mapGet]
  | cons kv rest ih =>
    obtain ⟨k₀, v₀⟩ := kv
    by_cases h₀ : k₀ = k
    · by_cases h₁ : k' = k
      · simp only [mapModify, mapGet, h₀, h₁, if_true, Option.map_some']
      · have : k ≠ k' := fun e => h₁ e.symm
        simp only [mapModify, mapGet, h₀, h₁, this, if_true, if_false]
    · by_cases h₁ : k' = k
      · subst h₁
        simp only [mapModify, mapGet, h₀, if_false, ih, if_true]
      · by_cases h₂ : k₀ = k'
        · simp only [mapModify, mapGet, h₀, h₁, h₂, if_true, if_false]
        · simp only [mapModify, mapGet, h₀, h₁, h₂, if_false, ih]

theorem keys_mapModify (m : StepMap) (k : String) (f : PlanStep → PlanStep) :
    (mapModify m k f).map Prod.fst = m.map Prod.fst := by
  induction m with
  | nil => rfl
  | cons kv rest ih =>
    obtain ⟨k₀, v₀⟩ := kv
    by_cases h₀ : k₀ = k
    · simp only [mapModify, h₀, if_true, List.map_cons]
    · simp only [mapModify, h₀, if_false, List.map_cons, ih]

theorem mem_keys_mapErase (m : StepMap) (k k' : String) :
    k' ∈ (mapErase m k).map Prod.fst ↔ k' ≠ k ∧ k' ∈ m.map Prod.fst := by
  induction m with
  | nil => simp [mapErase]
  | cons kv rest ih =>
    obtain ⟨k₀, v₀⟩ := kv
    by_cases h₀ : k₀ = k
    · simp only [mapErase, h₀, if_true, ih, List.map_cons, List.mem_cons]
      constructor
      · rintro ⟨h1, h2⟩
        exact ⟨h1, Or.inr h2⟩
      · rintro ⟨h1, h2 | h2⟩
        · exact absurd h2 h1
        · exact ⟨h1, h2⟩
    · simp only [mapErase, h₀, if_false, List.map_cons, List.mem_cons, ih]
      constructor
      · rintro (h | ⟨h1, h2⟩)
        · exact ⟨by rw [h]; exact h₀, Or.inl h⟩
        · exact ⟨h1, Or.inr h2⟩
      · rintro ⟨h1, h2 | h2⟩
        · exact Or.inl h2
        · exact Or.inr ⟨h1, h2⟩

theorem mem_mapErase {m : StepMap} {k : String} {kv : String × PlanStep}
    (h : kv ∈ mapErase m k) : kv ∈ m := by
  induction m with
  | nil => simp [mapErase] at h
  | cons kv₀ rest ih =>
    obtain ⟨k₀, v₀⟩ := kv₀
    by_cases h₀ : k₀ = k
    · simp only [mapErase, h₀, if_true] at h
      exact List.mem_cons_of_mem _ (ih h)
    · simp only [mapErase, h₀, if_false, List.mem_cons] at h
      rcases h with h | h
      · exact List.mem_cons.2 (Or.inl h)
      · exact List.mem_cons_of_mem _ (ih h)

theorem nodup_keys_mapErase (m : StepMap) (k : String)
    (h : (m.map Prod.fst).Nodup) : ((mapErase m k).map Prod.fst).Nodup := by
  induction m with
  | nil => simp [mapErase]
  | cons kv₀ rest ih =>
    obtain ⟨k₀, v₀⟩ := kv₀
    rw [List.map_cons, List.nodup_cons] at h
    by_cases h₀ : k₀ = k
    · simp only [mapErase, h₀, if_true]
      exact ih h.2
    · simp only [mapErase, h₀, if_false, List.map_cons, List.nodup_cons]
      refine ⟨?_, ih h.2⟩
      intro hmem
      exact h.1 ((mem_keys_mapErase rest k k₀).1 hmem).2

theorem mem_mapModify {m : StepMap} {k : String} {f : PlanStep → PlanStep}
    {kv : String × PlanStep} (h : kv ∈ mapModify m k f) :
    ∃ v, (kv.1, v) ∈ m ∧ (kv.2 = v ∨ kv.2 = f v) := by
  induction m with
  | nil => simp [mapModify] at h
  | cons kv₀ rest ih =>
    obtain ⟨k₀, v₀⟩ := kv₀
    by_cases h₀ : k₀ = k
    · simp only [mapModify, h₀, if_true, List.mem_cons] at h
      rcases h with h | h
      · subst h
        exact ⟨v₀, by simp [h₀], Or.inr rfl⟩
      · exact ⟨kv.2, List.mem_cons_of_mem _ h, Or.inl rfl⟩
    · simp only [mapModify, h₀, if_false, List.mem_cons] at h
      rcases h with h | h
      · subst h
        exact ⟨v₀, by simp, Or.inl rfl⟩
      · obtain ⟨v, hv, hor⟩ := ih h
        exact ⟨v, List.mem_cons_of_mem _ hv, hor⟩

/-! ### The invariant -/

theorem setStatus_ID (s : PlanStep) (st : PlanStatus) : (s.setStatus st).ID = s.ID := by
  cases s; rfl

theorem setObservation_ID (s : PlanStep) (o : Option PlanObservation) :
    (s.setObservation o).ID = s.ID := by
  cases s; rfl

theorem wf_new : WF NewPlanManager :=
  ⟨List.nodup_nil, (fun _ _ h => by cases h), (fun _ => Iff.rfl)⟩

theorem wf_replaceStep (pm : PlanManager) (step : PlanStep) (h : WF pm) :
    WF (replaceStep pm step) := by
  refine ⟨?_, ?_, ?_⟩
  · show ((mapSet pm.steps step.ID step).map Prod.fst).Nodup
    simp only [mapSet, List.map_cons, List.nodup_cons]
    refine ⟨?_, nodup_keys_mapErase _ _ h.keys_nodup⟩
    intro hmem
    exact ((mem_keys_mapErase _ _ _).1 hmem).1 rfl
  · intro k v hmem
    have hmem' : (k, v) ∈ (step.ID, step) :: mapErase pm.steps step.ID := hmem
    rcases List.mem_cons.1 hmem' with heq | hrest
    · cases heq
      rfl
    · exact h.id_eq k v (mem_mapErase hrest)
  · intro k
    show k ∈ pm.order ++ [step.ID] ↔ k ∈ (mapSet pm.steps step.ID step).map Prod.fst
    simp only [mapSet, List.map_cons, List.mem_append, List.mem_singleton, List.mem_cons,
      mem_keys_mapErase, h.order_iff k]
    by_cases hk : k = step.ID
    · simp [hk]
    · simp [hk]

theorem wf_foldl_replaceStep (steps : List PlanStep) (pm : PlanManager) (h : WF pm) :
    WF (steps.foldl replaceStep pm) := by
  induction steps generalizing pm with
  | nil => exact h
  | cons step rest ih => exact ih _ (wf_replaceStep pm step h)

theorem wf_replace (pm : PlanManager) (steps : List PlanStep) : WF (Replace pm steps) :=
  wf_foldl_replaceStep steps _ wf_new

theorem wf_update (pm : PlanManager) (id : String) (status : PlanStatus)
    (observation : Option PlanObservation) (h : WF pm) :
    WF (UpdateStatus pm id status observation).1 := by
  unfold UpdateStatus
  cases hg : mapGet pm.steps id with
  | none => exact h
  | some step =>
    refine ⟨?_, ?_, ?_⟩
    · simp only [keys_mapModify]
      exact h.keys_nodup
    · intro k v hmem
      obtain ⟨v', hv', hor⟩ := mem_mapModify hmem
      have hid := h.id_eq k v' hv'
      rcases hor with hor | hor
      · have hor' : v = v' := hor
        rw [hor']
        exact hid
      · have hor' : v = _ := hor
        rw [hor']
        cases observation with
        | none => simpa [setStatus_ID] using hid
        | some o => simpa [setStatus_ID, setObservation_ID] using hid
    · intro k
      simp only [keys_mapModify]
      exact h.order_iff k

theorem reachable_wf {pm : PlanManager} (h : Reachable pm) : WF pm := by
  induction h with
  | new => exact wf_new
  | replace pm steps _ _ => exact wf_replace pm steps
  | update pm id status observation _ ih => exact wf_update pm id status observation ih

theorem mem_snapshot_iff (pm : PlanManager) (s : PlanStep) :
    s ∈ Snapshot pm ↔ ∃ k ∈ pm.order, mapGet pm.steps k = some s := by
  simp [snapshot_eq, List.mem_filterMap]

/-- In a well-formed store an ID resolves through the map to a step exactly
when that step is in the plan and carries the ID. -/
theorem wf_mapGet_iff {pm : PlanManager} (h : WF pm) (id : String) (dep : PlanStep) :
    mapGet pm.steps id = some dep ↔ dep ∈ Snapshot pm ∧ dep.ID = id := by
  rw [mem_snapshot_iff]
  constructor
  · intro hg
    have hmem := mapGet_mem hg
    refine ⟨⟨id, ?_, hg⟩, h.id_eq id dep hmem⟩
    exact (h.order_iff id).2 (List.mem_map.2 ⟨(id, dep), hmem, rfl⟩)
  · rintro ⟨⟨k, _, hg⟩, hid⟩
    have := h.id_eq k dep (mapGet_mem hg)
    rw [← hid, this]
    exact hg

theorem wf_mapGet_none_iff {pm : PlanManager} (h : WF pm) (id : String) :
    mapGet pm.steps id = none ↔ ∀ t ∈ Snapshot pm, t.ID ≠ id := by
  constructor
  · intro hn t ht hid
    have := (wf_mapGet_iff h id t).2 ⟨ht, hid⟩
    rw [hn] at this
    cases this
  · intro hall
    cases hg : mapGet pm.steps id with
    | none => rfl
    | some dep =>
      have := (wf_mapGet_iff h id dep).1 hg
      exact absurd this.2 (hall dep this.1)

/-! ### Readiness -/

theorem readyTest_iff {pm : PlanManager} (h : WF pm) (s : PlanStep) :
    readyTest pm.steps s = true ↔ IsReady pm s := by
  simp only [readyTest, IsReady, depsReady_iff, Bool.and_eq_true, decide_eq_true_eq]
  constructor
  · rintro ⟨hp, hd⟩
    refine ⟨hp, ?_⟩
    intro id hid dep hdep hdid
    exact hd id hid dep ((wf_mapGet_iff h id dep).2 ⟨hdep, hdid⟩)
  · rintro ⟨hp, hd⟩
    refine ⟨hp, ?_⟩
    intro id hid dep hg
    have := (wf_mapGet_iff h id dep).1 hg
    exact hd id hid dep this.1 this.2

theorem readyLoop_eq_find (m : StepMap) (order : List String) :
    readyLoop m order = (order.filterMap (mapGet m)).find? (readyTest m) := by
  induction order with
  | nil => rfl
  | cons id rest ih =>
    cases h : mapGet m id with
    | none => simp [readyLoop, h, ih]
    | some step =>
      by_cases hp : step.Status = PlanPending
      · by_cases hd : depsReady m step.waitIDs = true
        · simp [readyLoop, h, hp, hd, readyTest]
        · simp [readyLoop, h, hp, hd, readyTest, ih]
      · simp [readyLoop, h, hp, readyTest, ih]

theorem ready_eq_find (pm : PlanManager) :
    Ready pm = (Snapshot pm).find? (readyTest pm.steps) := by
  rw [snapshot_eq, Ready, readyLoop_eq_find]

theorem ready_eq_some_iff {pm : PlanManager} (h : WF pm) (s : PlanStep) :
    Ready pm = some s ↔
      ∃ pre post, Snapshot pm = pre ++ s :: post ∧ IsReady pm s ∧
        ∀ t ∈ pre, ¬ IsReady pm t := by
  rw [ready_eq_find, List.find?_eq_some]
  constructor
  · rintro ⟨hs, pre, post, hsnap, hpre⟩
    refine ⟨pre, post, hsnap, (readyTest_iff h s).1 hs, ?_⟩
    intro t ht hready
    have := hpre t ht
    rw [(readyTest_iff h t).2 hready] at this
    exact absurd this (by decide)
  · rintro ⟨pre, post, hsnap, hs, hpre⟩
    refine ⟨(readyTest_iff h s).2 hs, pre, post, hsnap, ?_⟩
    intro t ht
    cases hb : readyTest pm.steps t with
    | false => rfl
    | true => exact absurd ((readyTest_iff h t).1 hb) (hpre t ht)

theorem ready_eq_none_iff {pm : PlanManager} (h : WF pm) :
    Ready pm = none ↔ ∀ t ∈ Snapshot pm, ¬ IsReady pm t := by
  rw [ready_eq_find, List.find?_eq_none]
  constructor
  · intro hn t ht hready
    exact hn t ht ((readyTest_iff h t).2 hready)
  · intro hn t ht hb
    exact hn t ht ((readyTest_iff h t).1 hb)

/-- C1: in every store state the API can produce, `Ready()` returns a step
exactly when that step is the first ready step of the plan in stored order
(every step before it in `Snapshot()` is not ready, so none of them is pending
with an empty `waitingForId`), and it signals none-ready exactly when no step
of the plan is ready. -/
theorem ready_returns_first_ready (pm : PlanManager) (hpm : Reachable pm) :
    (∀ s, Ready pm = some s ↔
        ∃ pre post, Snapshot pm = pre ++ s :: post ∧ IsReady pm s ∧
          ∀ t ∈ pre, ¬ IsReady pm t) ∧
    (Ready pm = none ↔ ∀ t ∈ Snapshot pm, ¬ IsReady pm t) ∧
    (∀ s, Ready pm = some s →
        ∃ pre post, Snapshot pm = pre ++ s :: post ∧
          ∀ t ∈ pre, ¬ (t.Status = PlanPending ∧ t.waitIDs = [])) := by
  have h := reachable_wf hpm
  refine ⟨ready_eq_some_iff h, ready_eq_none_iff h, ?_⟩
  intro s hs
  obtain ⟨pre, post, hsnap, _, hpre⟩ := (ready_eq_some_iff h s).1 hs
  refine ⟨pre, post, hsnap, ?_⟩
  rintro t ht ⟨hp, hw⟩
  apply hpre t ht
  refine ⟨hp, ?_⟩
  rw [hw]
  intro id hid
  cases hid

/-! ### Replace and Snapshot -/

theorem find_of_mem_nodup (l : List PlanStep) (hnd : (l.map PlanStep.ID).Nodup)
    (s : PlanStep) (hs : s ∈ l) :
    l.find? (fun t => decide (t.ID = s.ID)) = some s := by
  induction l with
  | nil => cases hs
  | cons x xs ih =>
    rw [List.map_cons, List.nodup_cons] at hnd
    rcases List.mem_cons.1 hs with heq | hmem
    · subst heq
      simp [List.find?_cons]
    · have hne : x.ID ≠ s.ID := by
        intro e
        apply hnd.1
        rw [e]
        exact List.mem_map.2 ⟨s, hmem, rfl⟩
      simp [List.find?_cons, hne, ih hnd.2 hmem]

theorem order_foldl_replaceStep (steps : List PlanStep) (pm : PlanManager) :
    (steps.foldl replaceStep pm).order = pm.order ++ steps.map PlanStep.ID := by
  induction steps generalizing pm with
  | nil => simp
  | cons step rest ih => simp [List.foldl_cons, ih, replaceStep]

/-- After the loop of `Replace`, an ID resolves to the last submitted step that
carries it, or to what the map held before the loop. -/
theorem mapGet_foldl_replaceStep (steps : List PlanStep) (pm : PlanManager) (k : String) :
    mapGet (steps.foldl replaceStep pm).steps k =
      match steps.reverse.find? (fun t => decide (t.ID = k)) with
      | some s => some s
      | none => mapGet pm.steps k := by
  induction steps generalizing pm with
  | nil => simp
  | cons step rest ih =>
    rw [List.foldl_cons, ih, List.reverse_cons, List.find?_append]
    cases hr : rest.reverse.find? (fun t => decide (t.ID = k)) with
    | some s => rfl
    | none =>
      by_cases hk : step.ID = k
      · simp [List.find?_cons, hk, replaceStep, mapGet_mapSet]
      · simp [List.find?_cons, hk, replaceStep, mapGet_mapSet]

theorem filterMap_ids (g : String → Option PlanStep) (l : List PlanStep)
    (h : ∀ s ∈ l, g s.ID = some s) : (l.map PlanStep.ID).filterMap g = l := by
  induction l with
  | nil => rfl
  | cons x xs ih =>
    rw [List.map_cons, List.filterMap_cons, h x (List.mem_cons_self _ _)]
    simp only [List.cons.injEq, true_and]
    exact ih (fun s hs => h s (List.mem_cons_of_mem _ hs))

theorem snapshot_replace_nodup (pm : PlanManager) (steps : List PlanStep)
    (hnd : (steps.map PlanStep.ID).Nodup) : Snapshot (Replace pm steps) = steps := by
  rw [snapshot_eq]
  have horder : (Replace pm steps).order = steps.map PlanStep.ID := by
    simp [Replace, order_foldl_replaceStep]
  rw [horder]
  apply filterMap_ids
  intro s hs
  have hnd' : (steps.reverse.map PlanStep.ID).Nodup := by
    rw [List.map_reverse]
    exact List.nodup_reverse.2 hnd
  have hfind := find_of_mem_nodup steps.reverse hnd' s (List.mem_reverse.2 hs)
  simp only [Replace, mapGet_foldl_replaceStep, hfind]

theorem planAB_nodup : (planAB.map PlanStep.ID).Nodup := by
  simp [planAB, pendingStep, PlanStep.ID]

theorem planDangling_nodup : (planDangling.map PlanStep.ID).Nodup := by
  simp [planDangling, pendingStep, PlanStep.ID]

theorem ready_planAB :
    Ready (Replace NewPlanManager planAB) = some (pendingStep "a" (some [])) := by
  rfl

/-- Witness of C1 on the stored plan `a`, `b` waiting for `a`: the store is
reachable, `Ready()` returns `a`, and no step before `a` is ready. -/
theorem ready_returns_first_ready_witness :
    Reachable (Replace NewPlanManager planAB) ∧
    ∃ pre post,
      Snapshot (Replace NewPlanManager planAB) = pre ++ pendingStep "a" (some []) :: post ∧
      IsReady (Replace NewPlanManager planAB) (pendingStep "a" (some [])) ∧
      ∀ t ∈ pre, ¬ IsReady (Replace NewPlanManager planAB) t :=
  ⟨Reachable.replace _ _ Reachable.new,
    ((ready_returns_first_ready (Replace NewPlanManager planAB)
      (Reachable.replace _ _ Reachable.new)).1 (pendingStep "a" (some []))).1 ready_planAB⟩

theorem depsReady_filter_known (m : StepMap) (ws : List String) :
    depsReady m ws = depsReady m (ws.filter (fun id => (mapGet m id).isSome)) := by
  induction ws with
  | nil => rfl
  | cons w rest ih =>
    cases h : mapGet m w with
    | none => simp [List.filter_cons, depsReady, h, ih]
    | some dep =>
      by_cases hc : dep.Status = PlanCompleted
      · simp [List.filter_cons, depsReady, h, ih, hc]
      · simp [List.filter_cons, depsReady, h, hc]

/-- C2: in every reachable store, for a pending step `s` of the plan whose
`waitingForId` holds an ID that names no step of the plan: if every ID of
`waitingForId` that does name a step of the plan names a completed one, then the
dependency loop of `Ready()` leaves `s` ready, `Ready()` does not signal
none-ready, and `Ready()` returns `s` when no step stored before it is ready.
The same holds when no ID of `waitingForId` names a step. The outcome of the
dependency loop never changes when the dangling IDs are removed. -/
theorem dangling_ids_never_block (pm : PlanManager) (hpm : Reachable pm) (s : PlanStep)
    (hs : s ∈ Snapshot pm) (hp : s.Status = PlanPending)
    (_hdangling : ∃ id ∈ s.waitIDs, ∀ t ∈ Snapshot pm, t.ID ≠ id) :
    ((∀ id ∈ s.waitIDs, ∀ dep ∈ Snapshot pm, dep.ID = id → dep.Status = PlanCompleted) →
      depsReady pm.steps s.waitIDs = true ∧ Ready pm ≠ none ∧
      ∀ pre post, Snapshot pm = pre ++ s :: post → (∀ t ∈ pre, ¬ IsReady pm t) →
        Ready pm = some s) ∧
    ((∀ id ∈ s.waitIDs, ∀ t ∈ Snapshot pm, t.ID ≠ id) →
      depsReady pm.steps s.waitIDs = true ∧ Ready pm ≠ none ∧
      ∀ pre post, Snapshot pm = pre ++ s :: post → (∀ t ∈ pre, ¬ IsReady pm t) →
        Ready pm = some s) ∧
    depsReady pm.steps s.waitIDs =
      depsReady pm.steps (s.waitIDs.filter (fun id => (mapGet pm.steps id).isSome)) := by
  have h := reachable_wf hpm
  have main : (∀ id ∈ s.waitIDs, ∀ dep ∈ Snapshot pm, dep.ID = id →
      dep.Status = PlanCompleted) →
      depsReady pm.steps s.waitIDs = true ∧ Ready pm ≠ none ∧
      ∀ pre post, Snapshot pm = pre ++ s :: post → (∀ t ∈ pre, ¬ IsReady pm t) →
        Ready pm = some s := by
    intro hdeps
    have hready : IsReady pm s := ⟨hp, hdeps⟩
    have htest := (readyTest_iff h s).2 hready
    refine ⟨?_, ?_, ?_⟩
    · simp only [readyTest, Bool.and_eq_true] at htest
      exact htest.2
    · intro hnone
      exact (ready_eq_none_iff h).1 hnone s hs hready
    · intro pre post hsnap hpre
      exact (ready_eq_some_iff h s).2 ⟨pre, post, hsnap, hready, hpre⟩
  refine ⟨main, ?_, depsReady_filter_known _ _⟩
  intro hunknown
  apply main
  intro id hid dep hdep hdid
  exact absurd hdid (hunknown id hid dep hdep)

/-- Witness of C2 on the plan `a` (completed), `b` waiting for `a` and for the
unknown ID `ghost`: the hypotheses hold and `Ready()` returns `b`. -/
theorem dangling_ids_never_block_witness :
    Reachable (Replace NewPlanManager planDangling) ∧
    pendingStep "b" (some ["a", "ghost"]) ∈ Snapshot (Replace NewPlanManager planDangling) ∧
    (∃ id ∈ (pendingStep "b" (some ["a", "ghost"])).waitIDs,
      ∀ t ∈ Snapshot (Replace NewPlanManager planDangling), t.ID ≠ id) ∧
    Ready (Replace NewPlanManager planDangling) = some (pendingStep "b" (some ["a", "ghost"])) := by
  have hreach : Reachable (Replace NewPlanManager planDangling) :=
    Reachable.replace _ _ Reachable.new
  have hsnap : Snapshot (Replace NewPlanManager planDangling) = planDangling :=
    snapshot_replace_nodup _ _ planDangling_nodup
  have hs : pendingStep "b" (some ["a", "ghost"]) ∈
      Snapshot (Replace NewPlanManager planDangling) := by
    rw [hsnap]
    simp [planDangling]
  have hdangling : ∃ id ∈ (pendingStep "b" (some ["a", "ghost"])).waitIDs,
      ∀ t ∈ Snapshot (Replace NewPlanManager planDangling), t.ID ≠ id := by
    rw [hsnap]
    refine ⟨"ghost", by simp [pendingStep, PlanStep.waitIDs, PlanStep.WaitingForID], ?_⟩
    intro t ht
    simp only [planDangling, List.mem_cons, List.mem_singleton, List.not_mem_nil,
      or_false] at ht
    rcases ht with ht | ht <;> rw [ht] <;> simp [pendingStep, PlanStep.ID]
  refine ⟨hreach, hs, hdangling, ?_⟩
  refine (dangling_ids_never_block _ hreach _ hs rfl hdangling).1 ?_ |>.2.2
    [PlanStep.mk "a" "a" PlanCompleted none echoCommand none] [] ?_ ?_
  · rw [hsnap]
    intro id hid dep hdep hdid
    simp only [planDangling, List.mem_cons, List.mem_singleton, List.not_mem_nil,
      or_false] at hdep
    simp only [pendingStep, PlanStep.waitIDs, PlanStep.WaitingForID, List.mem_cons,
      List.mem_singleton, List.not_mem_nil, or_false] at hid
    rcases hdep with hdep | hdep
    · rw [hdep]
      rfl
    · rw [hdep] at hdid
      simp only [pendingStep, PlanStep.ID] at hdid
      rcases hid with hid | hid <;> rw [hid] at hdid <;> simp at hdid
  · rw [hsnap]
    rfl
  · intro t ht hready
    simp only [List.mem_singleton] at ht
    rw [ht] at hready
    have hst := hready.1
    simp [PlanStep.Status, PlanCompleted, PlanPending] at hst

/-- C3: for every list of steps with pairwise distinct IDs, whatever the store
held before, `Snapshot()` right after `Replace(steps)` is equal to `steps`:
the same length, the same order, every field of every step (nested observation,
payload and plan copy included). -/
theorem replace_then_snapshot_roundtrip (pm : PlanManager) (steps : List PlanStep)
    (hnd : (steps.map PlanStep.ID).Nodup) :
    Snapshot (Replace pm steps) = steps ∧
      (Snapshot (Replace pm steps)).length = steps.length := by
  have h := snapshot_replace_nodup pm steps hnd
  exact ⟨h, by rw [h]⟩

theorem planObserved_nodup : (planObserved.map PlanStep.ID).Nodup := by
  simp [planObserved, pendingStep, PlanStep.ID]

/-- Witness of C3 on a plan whose first step carries a nested observation,
installed over the plan `a`, `b`. -/
theorem replace_then_snapshot_roundtrip_witness :
    (planObserved.map PlanStep.ID).Nodup ∧
    Snapshot (Replace (Replace NewPlanManager planAB) planObserved) = planObserved :=
  ⟨planObserved_nodup,
    (replace_then_snapshot_roundtrip (Replace NewPlanManager planAB) planObserved
      planObserved_nodup).1⟩

/-! ### UpdateStatus -/

theorem updateStatus_fails_iff (pm : PlanManager) (id : String) (status : PlanStatus)
    (observation : Option PlanObservation) :
    (UpdateStatus pm id status observation).2 ≠ none ↔ mapGet pm.steps id = none := by
  unfold UpdateStatus
  cases mapGet pm.steps id <;> simp

theorem updateStatus_unknown (pm : PlanManager) (id : String) (status : PlanStatus)
    (observation : Option PlanObservation) (h : mapGet pm.steps id = none) :
    UpdateStatus pm id status observation = (pm, some "plan: unknown step id") := by
  unfold UpdateStatus
  rw [h]

/-- C4: in every reachable store, `UpdateStatus(id, status, observation)`
returns an error exactly when no step of the current plan has the ID `id`; the
error is always the one message `plan: unknown step id`; and in the error case
the store, hence `Snapshot()`, is unchanged. -/
theorem updateStatus_error_iff_unknown (pm : PlanManager) (hpm : Reachable pm)
    (id : String) (status : PlanStatus) (observation : Option PlanObservation) :
    ((UpdateStatus pm id status observation).2 ≠ none ↔ ∀ t ∈ Snapshot pm, t.ID ≠ id) ∧
    ((UpdateStatus pm id status observation).2 ≠ none →
      (UpdateStatus pm id status observation).2 = some "plan: unknown step id" ∧
      (UpdateStatus pm id status observation).1 = pm ∧
      Snapshot (UpdateStatus pm id status observation).1 = Snapshot pm) := by
  have h := reachable_wf hpm
  refine ⟨?_, ?_⟩
  · rw [updateStatus_fails_iff, wf_mapGet_none_iff h]
  · intro herr
    have hnone := (updateStatus_fails_iff pm id status observation).1 herr
    rw [updateStatus_unknown pm id status observation hnone]
    exact ⟨rfl, rfl, rfl⟩

/-- Witness of C4: on the stored plan `a`, `b` an update of the unknown ID
`ghost` fails and leaves the snapshot as it was. -/
theorem updateStatus_error_iff_unknown_witness :
    Reachable (Replace NewPlanManager planAB) ∧
    (UpdateStatus (Replace NewPlanManager planAB) "ghost" PlanCompleted none).2 ≠ none ∧
    Snapshot (UpdateStatus (Replace NewPlanManager planAB) "ghost" PlanCompleted none).1 =
      Snapshot (Replace NewPlanManager planAB) :=
  have herr : (UpdateStatus (Replace NewPlanManager planAB) "ghost" PlanCompleted none).2
      ≠ none := by
    rw [updateStatus_fails_iff]
    rfl
  ⟨Reachable.replace _ _ Reachable.new, herr,
    ((updateStatus_error_iff_unknown (Replace NewPlanManager planAB)
      (Reachable.replace _ _ Reachable.new) "ghost" PlanCompleted none).2 herr).2.2⟩

theorem write_eq_updatedStep (t : PlanStep) (status : PlanStatus)
    (observation : Option PlanObservation) :
    (match observation with
      | some o => (t.setStatus status).setObservation (some o)
      | none => t.setStatus status) = updatedStep t status observation := by
  cases t
  cases observation <;> rfl

theorem snapshot_updateStatus {pm : PlanManager} (h : WF pm) (id : String)
    (status : PlanStatus) (observation : Option PlanObservation) (old : PlanStep)
    (hold : mapGet pm.steps id = some old) :
    Snapshot (UpdateStatus pm id status observation).1 =
      (Snapshot pm).map
        (fun t => if t.ID = id then updatedStep t status observation else t) := by
  unfold UpdateStatus
  rw [hold]
  simp only [snapshot_eq, List.map_filterMap]
  apply List.filterMap_congr
  intro k _
  rw [mapGet_mapModify]
  cases hg : mapGet pm.steps k with
  | none =>
    by_cases hk : k = id
    · rw [hk] at hg
      rw [hg] at hold
      cases hold
    · simp [hk]
  | some t =>
    have hid : t.ID = k := h.id_eq k t (mapGet_mem hg)
    by_cases hk : k = id
    · subst hk
      simp [hg, hid, write_eq_updatedStep]
    · simp [hk, hid]

/-- C5: in every reachable store that holds a step with ID `id`,
`UpdateStatus(id, s, obs)` succeeds and afterwards the plan is the old plan,
in the old order, with each step under `id` replaced by the step that has
status `s`, observation `obs` when `obs` is present (the previous observation
when absent) and the old id, title, waitingForId and command; every step with
another ID is unchanged. -/
theorem updateStatus_frame (pm : PlanManager) (hpm : Reachable pm) (id : String)
    (s : PlanStatus) (obs : Option PlanObservation) (old : PlanStep)
    (hold : old ∈ Snapshot pm) (hid : old.ID = id) :
    (UpdateStatus pm id s obs).2 = none ∧
    (UpdateStatus pm id s obs).1.order = pm.order ∧
    Snapshot (UpdateStatus pm id s obs).1 =
      (Snapshot pm).map (fun t => if t.ID = id then updatedStep t s obs else t) ∧
    mapGet (UpdateStatus pm id s obs).1.steps id = some (updatedStep old s obs) ∧
    (updatedStep old s obs).Status = s ∧
    (updatedStep old s obs).Observation = (match obs with
      | some o => some o
      | none => old.Observation) ∧
    (updatedStep old s obs).ID = old.ID ∧
    (updatedStep old s obs).Title = old.Title ∧
    (updatedStep old s obs).WaitingForID = old.WaitingForID ∧
    (updatedStep old s obs).Command = old.Command ∧
    (∀ k, k ≠ id → mapGet (UpdateStatus pm id s obs).1.steps k = mapGet pm.steps k) := by
  have h := reachable_wf hpm
  have hg : mapGet pm.steps id = some old := (wf_mapGet_iff h id old).2 ⟨hold, hid⟩
  have hsnap := snapshot_updateStatus h id s obs old hg
  refine ⟨?_, ?_, hsnap, ?_, rfl, rfl, rfl, rfl, rfl, rfl, ?_⟩
  · unfold UpdateStatus
    rw [hg]
  · unfold UpdateStatus
    rw [hg]
  · unfold UpdateStatus
    rw [hg]
    simp only [mapGet_mapModify, if_true, hg, Option.map_some', write_eq_updatedStep]
  · intro k hk
    unfold UpdateStatus
    rw [hg]
    simp only [mapGet_mapModify, hk, if_false]

/-- Witness of C5: completing step `a` of the stored plan `a`, `b` with an
observation. -/
theorem updateStatus_frame_witness :
    Reachable (Replace NewPlanManager planAB) ∧
    pendingStep "a" (some []) ∈ Snapshot (Replace NewPlanManager planAB) ∧
    Snapshot (UpdateStatus (Replace NewPlanManager planAB) "a" PlanCompleted
        (some sampleObservation)).1 =
      (Snapshot (Replace NewPlanManager planAB)).map
        (fun t => if t.ID = "a" then updatedStep t PlanCompleted (some sampleObservation)
          else t) :=
  have hs : pendingStep "a" (some []) ∈ Snapshot (Replace NewPlanManager planAB) := by
    rw [snapshot_replace_nodup _ _ planAB_nodup]
    simp [planAB]
  ⟨Reachable.replace _ _ Reachable.new, hs,
    (updateStatus_frame (Replace NewPlanManager planAB)
      (Reachable.replace _ _ Reachable.new) "a" PlanCompleted (some sampleObservation)
      (pendingStep "a" (some [])) hs rfl).2.2.1⟩

/-! ### Completed -/

theorem completedLoop_iff (n : Nat) (m : StepMap) :
    completedLoop n m = true ↔ 0 < n ∧ ∀ kv ∈ m, kv.2.Status = PlanCompleted := by
  induction m with
  | nil => simp [completedLoop]
  | cons kv rest ih =>
    obtain ⟨k, v⟩ := kv
    by_cases hc : v.Status = PlanCompleted
    · simp [completedLoop, hc, ih]
    · simp [completedLoop, hc]

theorem wf_mem_snapshot_iff {pm : PlanManager} (h : WF pm) (t : PlanStep) :
    t ∈ Snapshot pm ↔ ∃ k, (k, t) ∈ pm.steps := by
  rw [mem_snapshot_iff]
  constructor
  · rintro ⟨k, _, hg⟩
    exact ⟨k, mapGet_mem hg⟩
  · rintro ⟨k, hmem⟩
    refine ⟨k, ?_, mapGet_of_mem h.keys_nodup hmem⟩
    exact (h.order_iff k).2 (List.mem_map.2 ⟨(k, t), hmem, rfl⟩)

theorem wf_completed_iff {pm : PlanManager} (h : WF pm) :
    Completed pm = true ↔
      Snapshot pm ≠ [] ∧ ∀ t ∈ Snapshot pm, t.Status = PlanCompleted := by
  rw [Completed, completedLoop_iff]
  constructor
  · rintro ⟨hlen, hall⟩
    refine ⟨?_, ?_⟩
    · obtain ⟨kv, hkv⟩ := List.exists_mem_of_length_pos hlen
      have : kv.2 ∈ Snapshot pm := (wf_mem_snapshot_iff h kv.2).2 ⟨kv.1, hkv⟩
      exact List.ne_nil_of_mem this
    · intro t ht
      obtain ⟨k, hk⟩ := (wf_mem_snapshot_iff h t).1 ht
      exact hall (k, t) hk
  · rintro ⟨hne, hall⟩
    refine ⟨?_, ?_⟩
    · obtain ⟨t, ht⟩ := List.exists_mem_of_ne_nil _ hne
      obtain ⟨k, hk⟩ := (wf_mem_snapshot_iff h t).1 ht
      exact List.length_pos_of_mem hk
    · intro kv hkv
      exact hall kv.2 ((wf_mem_snapshot_iff h kv.2).2 ⟨kv.1, hkv⟩)

/-- C6: in every reachable store, `Completed()` is true exactly when the plan
holds at least one step and every step of the plan has status completed; it is
false for the empty plan and false as soon as one step is pending, failed or
abandoned. -/
theorem completed_iff_nonempty_all_completed (pm : PlanManager) (hpm : Reachable pm) :
    (Completed pm = true ↔
      Snapshot pm ≠ [] ∧ ∀ t ∈ Snapshot pm, t.Status = PlanCompleted) ∧
    (Snapshot pm = [] → Completed pm = false) ∧
    (∀ t ∈ Snapshot pm,
      (t.Status = PlanPending ∨ t.Status = PlanFailed ∨ t.Status = PlanAbandoned) →
        Completed pm = false) := by
  have h := reachable_wf hpm
  have key := wf_completed_iff h
  refine ⟨key, ?_, ?_⟩
  · intro hempty
    cases hc : Completed pm with
    | false => rfl
    | true => exact absurd hempty (key.1 hc).1
  · intro t ht hst
    cases hc : Completed pm with
    | false => rfl
    | true =>
      have hcompleted := (key.1 hc).2 t ht
      rw [hcompleted] at hst
      revert hst
      decide

/-- Witness of C6: the freshly stored plan `a`, `b` has a pending step and is
not completed. -/
theorem completed_iff_nonempty_all_completed_witness :
    Reachable (Replace NewPlanManager planAB) ∧
    pendingStep "a" (some []) ∈ Snapshot (Replace NewPlanManager planAB) ∧
    Completed (Replace NewPlanManager planAB) = false :=
  have hs : pendingStep "a" (some []) ∈ Snapshot (Replace NewPlanManager planAB) := by
    rw [snapshot_replace_nodup _ _ planAB_nodup]
    simp [planAB]
  ⟨Reachable.replace _ _ Reachable.new, hs,
    (completed_iff_nonempty_all_completed (Replace NewPlanManager planAB)
      (Reachable.replace _ _ Reachable.new)).2.2 (pendingStep "a" (some [])) hs
      (Or.inl rfl)⟩

/-! ### The end-to-end scenario -/

/-- C7: for distinct IDs `a` and `b`, whatever the store held before and
whatever the other fields of the two steps: after `Replace` of step `a`
(pending, empty `waitingForId`, nil or empty) and step `b` (pending, waiting
for `a`), `Ready()` returns step `a`; `UpdateStatus(a, completed, obs)`
succeeds and then `Ready()` returns step `b`; `UpdateStatus(b, completed, obs)`
succeeds and then `Completed()` is true and `Ready()` signals none-ready. -/
theorem end_to_end_two_steps (a b : String) (hab : a ≠ b) (pm : PlanManager)
    (ta tb : String) (ca cb : CommandDraft) (oa ob : Option PlanObservation)
    (wa : Option (List String)) (hwa : wa = none ∨ wa = some [])
    (obs₁ obs₂ : Option PlanObservation) :
    Ready (Replace pm [PlanStep.mk a ta PlanPending wa ca oa,
        PlanStep.mk b tb PlanPending (some [a]) cb ob])
      = some (PlanStep.mk a ta PlanPending wa ca oa) ∧
    (UpdateStatus (Replace pm [PlanStep.mk a ta PlanPending wa ca oa,
        PlanStep.mk b tb PlanPending (some [a]) cb ob]) a PlanCompleted obs₁).2 = none ∧
    Ready (UpdateStatus (Replace pm [PlanStep.mk a ta PlanPending wa ca oa,
        PlanStep.mk b tb PlanPending (some [a]) cb ob]) a PlanCompleted obs₁).1
      = some (PlanStep.mk b tb PlanPending (some [a]) cb ob) ∧
    (UpdateStatus (UpdateStatus (Replace pm [PlanStep.mk a ta PlanPending wa ca oa,
        PlanStep.mk b tb PlanPending (some [a]) cb ob]) a PlanCompleted obs₁).1
        b PlanCompleted obs₂).2 = none ∧
    Completed (UpdateStatus (UpdateStatus (Replace pm [PlanStep.mk a ta PlanPending wa ca oa,
        PlanStep.mk b tb PlanPending (some [a]) cb ob]) a PlanCompleted obs₁).1
        b PlanCompleted obs₂).1 = true ∧
    Ready (UpdateStatus (UpdateStatus (Replace pm [PlanStep.mk a ta PlanPending wa ca oa,
        PlanStep.mk b tb PlanPending (some [a]) cb ob]) a PlanCompleted obs₁).1
        b PlanCompleted obs₂).1 = none := by
  have hba : b ≠ a := fun e => hab e.symm
  have hpc : PlanPending ≠ PlanCompleted := by decide
  have hcp : PlanCompleted ≠ PlanPending := by decide
  have hrep : Replace pm [PlanStep.mk a ta PlanPending wa ca oa,
      PlanStep.mk b tb PlanPending (some [a]) cb ob] =
      { order := [a, b],
        steps := [(b, PlanStep.mk b tb PlanPending (some [a]) cb ob),
          (a, PlanStep.mk a ta PlanPending wa ca oa)] } := by
    simp [Replace, replaceStep, mapSet, mapErase, PlanStep.ID, hab]
  rw [hrep]
  rcases hwa with hwa | hwa <;> subst hwa <;> cases obs₁ <;> cases obs₂ <;>
    simp [Ready, readyLoop, depsReady, mapGet, mapModify, UpdateStatus, Completed,
      completedLoop, PlanStep.Status, PlanStep.waitIDs, PlanStep.WaitingForID,
      PlanStep.setStatus, PlanStep.setObservation, hab, hba, hpc, hcp]

/-- Witness of C7 with the IDs `a` and `b` of the specification's scenario. -/
theorem end_to_end_two_steps_witness :
    Ready (Replace NewPlanManager planAB) = some (pendingStep "a" (some [])) ∧
    Completed (UpdateStatus (UpdateStatus (Replace NewPlanManager planAB)
      "a" PlanCompleted (some sampleObservation)).1
      "b" PlanCompleted (some sampleObservation)).1 = true :=
  have h := end_to_end_two_steps "a" "b" (by decide) NewPlanManager "a" "b" echoCommand
    echoCommand none none (some []) (Or.inr rfl) (some sampleObservation)
    (some sampleObservation)
  ⟨h.1, h.2.2.2.2.1⟩

/-! ## The output shaper -/

/-! ### Split and join -/

theorem bytesSplit_exists_cons (x : List Byte) : ∃ l ls, bytesSplit x = l :: ls := by
  induction x with
  | nil => exact ⟨[], [], rfl⟩
  | cons c cs ih =>
    obtain ⟨l, ls, h⟩ := ih
    by_cases hc : c = newline
    · exact ⟨[], bytesSplit cs, by simp [bytesSplit, hc]⟩
    · exact ⟨c :: l, ls, by simp [bytesSplit, hc, h]⟩

theorem bytesSplit_cons_newline (cs : List Byte) :
    bytesSplit (newline :: cs) = [] :: bytesSplit cs := by
  simp [bytesSplit]

theorem bytesSplit_cons_ne {c : Byte} (hc : c ≠ newline) {cs l : List Byte}
    {ls : List (List Byte)} (h : bytesSplit cs = l :: ls) :
    bytesSplit (c :: cs) = (c :: l) :: ls := by
  simp [bytesSplit, hc, h]

theorem bytesJoin_cons_cons (c : Byte) (l : List Byte) (ls : List (List Byte)) :
    bytesJoin ((c :: l) :: ls) = c :: bytesJoin (l :: ls) := by
  cases ls <;> simp [bytesJoin]

theorem bytesJoin_nil_cons (l : List Byte) (ls : List (List Byte)) :
    bytesJoin ([] :: l :: ls) = newline :: bytesJoin (l :: ls) := by
  simp [bytesJoin]

/-- Joining the pieces of a split gives the bytes back. -/
theorem bytesJoin_bytesSplit (x : List Byte) : bytesJoin (bytesSplit x) = x := by
  induction x with
  | nil => rfl
  | cons c cs ih =>
    obtain ⟨l, ls, h⟩ := bytesSplit_exists_cons cs
    by_cases hc : c = newline
    · subst hc
      rw [bytesSplit_cons_newline, h, bytesJoin_nil_cons, ← h, ih]
    · rw [bytesSplit_cons_ne hc h, bytesJoin_cons_cons, ← h, ih]

theorem length_bytesSplit (x : List Byte) :
    (bytesSplit x).length = x.count newline + 1 := by
  induction x with
  | nil => rfl
  | cons c cs ih =>
    obtain ⟨l, ls, h⟩ := bytesSplit_exists_cons cs
    by_cases hc : c = newline
    · subst hc
      rw [bytesSplit_cons_newline, List.length_cons, ih, List.count_cons_self]
    · rw [bytesSplit_cons_ne hc h, List.count_cons_of_ne (fun e => hc e.symm), ← ih, h]
      rfl

/-- No piece of a split holds a newline. -/
theorem not_mem_of_mem_bytesSplit (x : List Byte) :
    ∀ l ∈ bytesSplit x, newline ∉ l := by
  induction x with
  | nil =>
    intro l hl
    simp only [bytesSplit, List.mem_singleton] at hl
    rw [hl]
    exact List.not_mem_nil _
  | cons c cs ih =>
    obtain ⟨l₀, ls, h⟩ := bytesSplit_exists_cons cs
    intro l hl
    by_cases hc : c = newline
    · subst hc
      rw [bytesSplit_cons_newline, List.mem_cons] at hl
      rcases hl with hl | hl
      · rw [hl]
        exact List.not_mem_nil _
      · exact ih l hl
    · rw [bytesSplit_cons_ne hc h, List.mem_cons] at hl
      rcases hl with hl | hl
      · rw [hl]
        intro hmem
        rcases List.mem_cons.1 hmem with e | hmem'
        · exact hc e.symm
        · exact ih l₀ (by rw [h]; exact List.mem_cons_self _ _) hmem'
      · exact ih l (by rw [h]; exact List.mem_cons_of_mem _ hl)

theorem bytesSplit_of_not_mem (l : List Byte) (h : newline ∉ l) : bytesSplit l = [l] := by
  induction l with
  | nil => rfl
  | cons c cs ih =>
    have hc : c ≠ newline := fun e => h (by rw [e]; exact List.mem_cons_self _ _)
    have hcs : newline ∉ cs := fun hm => h (List.mem_cons_of_mem _ hm)
    rw [bytesSplit_cons_ne hc (ih hcs)]

theorem bytesSplit_append_newline (l y : List Byte) (h : newline ∉ l) :
    bytesSplit (l ++ newline :: y) = l :: bytesSplit y := by
  induction l with
  | nil => exact bytesSplit_cons_newline y
  | cons c cs ih =>
    have hc : c ≠ newline := fun e => h (by rw [e]; exact List.mem_cons_self _ _)
    have hcs : newline ∉ cs := fun hm => h (List.mem_cons_of_mem _ hm)
    rw [List.cons_append, bytesSplit_cons_ne hc (ih hcs)]

/-- Splitting the join of newline-free pieces gives the pieces back. -/
theorem bytesSplit_bytesJoin (ls : List (List Byte)) (hne : ls ≠ [])
    (h : ∀ l ∈ ls, newline ∉ l) : bytesSplit (bytesJoin ls) = ls := by
  induction ls with
  | nil => exact absurd rfl hne
  | cons l rest ih =>
    cases rest with
    | nil => exact bytesSplit_of_not_mem l (h l (List.mem_cons_self _ _))
    | cons l' rest' =>
      have hl := h l (List.mem_cons_self _ _)
      have hrest : ∀ l₁ ∈ l' :: rest', newline ∉ l₁ :=
        fun l₁ hl₁ => h l₁ (List.mem_cons_of_mem _ hl₁)
      show bytesSplit (l ++ newline :: bytesJoin (l' :: rest')) = l :: l' :: rest'
      rw [bytesSplit_append_newline _ _ hl, ih (List.cons_ne_nil _ _) hrest]

theorem dropLine_of_not_mem (x : List Byte) (h : newline ∉ x) : dropLine x = [] := by
  induction x with
  | nil => rfl
  | cons c cs ih =>
    have hc : c ≠ newline := fun e => h (by rw [e]; exact List.mem_cons_self _ _)
    have hcs : newline ∉ cs := fun hm => h (List.mem_cons_of_mem _ hm)
    simp [dropLine, hc, ih hcs]

/-- The pieces after the first are the pieces of the output without its first line. -/
theorem tail_bytesSplit (x : List Byte) (h : newline ∈ x) :
    (bytesSplit x).tail = bytesSplit (dropLine x) := by
  induction x with
  | nil => cases h
  | cons c cs ih =>
    obtain ⟨l, ls, hsplit⟩ := bytesSplit_exists_cons cs
    by_cases hc : c = newline
    · subst hc
      simp [bytesSplit_cons_newline, dropLine]
    · have hcs : newline ∈ cs := by
        rcases List.mem_cons.1 h with e | hm
        · exact absurd e.symm hc
        · exact hm
      have := ih hcs
      rw [hsplit] at this
      rw [bytesSplit_cons_ne hc hsplit]
      simp only [dropLine, hc, if_false]
      exact this

theorem bytesJoin_drop_bytesSplit (k : Nat) (x : List Byte)
    (hk : k < (bytesSplit x).length) :
    bytesJoin ((bytesSplit x).drop k) = dropLines k x := by
  induction k generalizing x with
  | zero => simp [dropLines, bytesJoin_bytesSplit]
  | succ k ih =>
    have hmem : newline ∈ x := by
      rw [length_bytesSplit] at hk
      exact List.count_pos_iff.1 (by omega)
    have htail := tail_bytesSplit x hmem
    rw [← List.drop_tail, htail]
    have hlen : k < (bytesSplit (dropLine x)).length := by
      rw [← htail, List.length_tail]
      omega
    rw [ih _ hlen]
    rfl

theorem dropLine_suffix (x : List Byte) : dropLine x <:+ x := by
  induction x with
  | nil => exact List.suffix_refl _
  | cons c cs ih =>
    by_cases hc : c = newline
    · simp only [dropLine, hc, if_true]
      exact List.suffix_cons _ _
    · simp only [dropLine, hc, if_false]
      exact ih.trans (List.suffix_cons _ _)

theorem dropLines_suffix (k : Nat) (x : List Byte) : dropLines k x <:+ x := by
  induction k generalizing x with
  | zero => exact List.suffix_refl _
  | succ k ih => exact (ih (dropLine x)).trans (dropLine_suffix x)

/-! ### Truncation -/

theorem lastBytes_eq (m : Int) (x : List Byte) :
    lastBytes m x =
      if 0 < m ∧ m < (x.length : Int) then x.drop (x.length - m.toNat) else x := by
  unfold lastBytes
  split
  · rw [List.take_reverse, List.reverse_reverse]
  · rfl

theorem lastLines_eq (t : Int) (y : List Byte) :
    lastLines t y =
      if 0 < t ∧ t < ((bytesSplit y).length : Int) then
        bytesJoin ((bytesSplit y).drop ((bytesSplit y).length - t.toNat))
      else y := by
  unfold lastLines
  rw [length_bytesSplit]
  split
  · rename_i h
    rw [bytesJoin_drop_bytesSplit]
    rw [length_bytesSplit]
    omega
  · rfl

/-- The bytes `truncateOutput` returns: the line cap of the byte cap. -/
theorem truncateOutput_fst (x : List Byte) (m t : Int) :
    (truncateOutput x m t).1 = lastLines t (lastBytes m x) := by
  rw [lastLines_eq, lastBytes_eq]
  unfold truncateOutput
  by_cases hx : x = []
  · subst hx
    simp [bytesSplit]
    omega
  · have hlen : x.length ≠ 0 := fun e => hx (List.length_eq_zero.1 e)
    simp only [hlen, if_false]
    by_cases ht : t ≤ 0
    · have : ¬ 0 < t := by omega
      simp [ht, this]
      split <;> rfl
    · have ht' : 0 < t := by omega
      simp only [ht, if_false, ht', true_and, gt_iff_lt]
      split <;> split <;> simp_all [bytesJoin_bytesSplit]

theorem lastBytes_suffix (m : Int) (x : List Byte) : lastBytes m x <:+ x := by
  rw [lastBytes_eq]
  split
  · exact List.drop_suffix _ _
  · exact List.suffix_refl _

theorem lastLines_suffix (t : Int) (y : List Byte) : lastLines t y <:+ y := by
  unfold lastLines
  split
  · exact dropLines_suffix _ _
  · exact List.suffix_refl _

theorem length_lastBytes (m : Int) (x : List Byte) (hm : 0 < m) :
    ((lastBytes m x).length : Int) ≤ m := by
  rw [lastBytes_eq]
  split
  · rw [List.length_drop]
    omega
  · omega

theorem lineCount_lastLines (t : Int) (y : List Byte) (ht : 0 < t) :
    (lineCount (lastLines t y) : Int) ≤ t := by
  rw [lastLines_eq]
  split
  · rename_i h
    have hne : (bytesSplit y).drop ((bytesSplit y).length - t.toNat) ≠ [] := by
      intro e
      have := List.drop_eq_nil_iff.1 e
      omega
    have hfree : ∀ l ∈ (bytesSplit y).drop ((bytesSplit y).length - t.toNat),
        newline ∉ l :=
      fun l hl => not_mem_of_mem_bytesSplit y l (List.mem_of_mem_drop hl)
    rw [lineCount, bytesSplit_bytesJoin _ hne hfree, List.length_drop]
    omega
  · rename_i h
    unfold lineCount
    omega

theorem lastBytes_of_le (m : Int) (x : List Byte) (h : 0 < m → (x.length : Int) ≤ m) :
    lastBytes m x = x := by
  rw [lastBytes_eq]
  split
  · rename_i hc
    have := h hc.1
    omega
  · rfl

theorem lastLines_of_le (t : Int) (y : List Byte) (h : 0 < t → (lineCount y : Int) ≤ t) :
    lastLines t y = y := by
  rw [lastLines_eq]
  split
  · rename_i hc
    have := h hc.1
    unfold lineCount at this
    omega
  · rfl

/-- Truncating an output that is already truncated changes nothing. -/
theorem truncateOutput_idem (x : List Byte) (m t : Int) :
    (truncateOutput (truncateOutput x m t).1 m t).1 = (truncateOutput x m t).1 := by
  rw [truncateOutput_fst (truncateOutput x m t).1, truncateOutput_fst x]
  have hbytes : lastBytes m (lastLines t (lastBytes m x)) = lastLines t (lastBytes m x) := by
    apply lastBytes_of_le
    intro hm
    have h1 := (lastLines_suffix t (lastBytes m x)).length_le
    have h2 := length_lastBytes m x hm
    omega
  rw [hbytes]
  apply lastLines_of_le
  intro ht
  exact lineCount_lastLines t _ ht

theorem truncateOutput_flag (x : List Byte) (m t : Int) (ht : 0 < t)
    (hx : t < (lineCount x : Int)) : (truncateOutput x m t).2 = true := by
  unfold truncateOutput
  by_cases hnil : x = []
  · subst hnil
    simp [lineCount, bytesSplit] at hx
    omega
  · have hlen : x.length ≠ 0 := fun e => hnil (List.length_eq_zero.1 e)
    have ht' : ¬ t ≤ 0 := by omega
    simp only [hlen, if_false, ht']
    unfold lineCount at hx
    by_cases hc : m > 0 ∧ (x.length : Int) > m
    · simp only [hc, and_self, if_true]
      split <;> rfl
    · simp only [hc, if_false, gt_iff_lt, hx, if_true]

theorem textLines_le_lineCount (x : List Byte) : textLines x ≤ lineCount x := by
  unfold textLines lineCount
  rw [length_bytesSplit]
  split
  · omega
  · split <;> omega

/-! ### Filtering -/

theorem applyFilter_nil (compile : Regexp) (pattern : String) :
    applyFilter compile [] pattern = [] := by
  unfold applyFilter
  split
  · rfl
  · split
    · rfl
    · rename_i rx _
      cases hrx : rx [] <;> simp [bytesSplit, List.filter_cons, hrx, bytesJoin]

/-- Filtering the join of newline-free lines that all match keeps every line. -/
theorem applyFilter_bytesJoin (compile : Regexp) (pattern : String)
    (rx : List Byte → Bool) (hc : compile pattern = some rx) (ls : List (List Byte))
    (hne : ls ≠ []) (hfree : ∀ l ∈ ls, newline ∉ l) (hrx : ∀ l ∈ ls, rx l = true) :
    applyFilter compile (bytesJoin ls) pattern = bytesJoin ls := by
  unfold applyFilter
  split
  · rfl
  · rw [hc]
    simp only
    rw [bytesSplit_bytesJoin ls hne hfree, List.filter_eq_self.2 hrx]

/-- The line cap of a filtered output is a fixed point of the filter. -/
theorem applyFilter_lastLines (compile : Regexp) (raw : List Byte) (pattern : String)
    (t : Int) :
    applyFilter compile (lastLines t (applyFilter compile raw pattern)) pattern =
      lastLines t (applyFilter compile raw pattern) := by
  by_cases hp : pattern = ""
  · simp [applyFilter, hp]
  · cases hc : compile pattern with
    | none => simp [applyFilter, hp, hc]
    | some rx =>
      have hf : applyFilter compile raw pattern =
          bytesJoin ((bytesSplit raw).filter rx) := by
        simp [applyFilter, hp, hc]
      have hfree : ∀ l ∈ (bytesSplit raw).filter rx, newline ∉ l :=
        fun l hl => not_mem_of_mem_bytesSplit raw l (List.mem_filter.1 hl).1
      have hrx : ∀ l ∈ (bytesSplit raw).filter rx, rx l = true :=
        fun l hl => (List.mem_filter.1 hl).2
      by_cases hkept : (bytesSplit raw).filter rx = []
      · have hnil : applyFilter compile raw pattern = [] := by
          rw [hf, hkept]
          rfl
        have hz : lastLines t (applyFilter compile raw pattern) = [] := by
          have := lastLines_suffix t (applyFilter compile raw pattern)
          rw [hnil] at this
          rw [hnil]
          exact List.suffix_nil.1 this
        rw [hz, applyFilter_nil]
      · have hsplit := bytesSplit_bytesJoin _ hkept hfree
        rw [lastLines_eq, hf, hsplit]
        split
        · rename_i hcond
          apply applyFilter_bytesJoin compile pattern rx hc
          · intro e
            have := List.drop_eq_nil_iff.1 e
            omega
          · exact fun l hl => hfree l (List.mem_of_mem_drop hl)
          · exact fun l hl => hrx l (List.mem_of_mem_drop hl)
        · exact applyFilter_bytesJoin compile pattern rx hc _ hkept hfree hrx

/-! ### The claims on output shaping -/

/-- C8, counterexample: with the filter `^f` and a byte cap of 4 the output
`fa`, newline, `fb` is shaped to `a`, newline, `fb` (the cap cuts the first
line), and shaping that again drops the cut line and gives `fb`. -/
theorem shape_not_idempotent :
    Shape caretF rawFaFb "^f" 4 0 = ([97, 10, 102, 98], true) ∧
    Shape caretF [97, 10, 102, 98] "^f" 4 0 = ([102, 98], false) ∧
    (Shape caretF (Shape caretF rawFaFb "^f" 4 0).1 "^f" 4 0).1 ≠
      (Shape caretF rawFaFb "^f" 4 0).1 := by
  decide

/-- C8, amended: shaping is idempotent on the bytes whenever the filter is
off (empty pattern or a pattern that does not compile) or the byte cap does
not cut the filtered output (`maxBytes ≤ 0` or the filtered output is no longer
than `maxBytes`). -/
theorem shape_idempotent_of_uncut (compile : Regexp) (raw : List Byte) (pattern : String)
    (maxBytes tailLines : Int)
    (h : pattern = "" ∨ compile pattern = none ∨ maxBytes ≤ 0 ∨
      ((applyFilter compile raw pattern).length : Int) ≤ maxBytes) :
    (Shape compile (Shape compile raw pattern maxBytes tailLines).1 pattern
        maxBytes tailLines).1 =
      (Shape compile raw pattern maxBytes tailLines).1 := by
  have hid : (∀ y, applyFilter compile y pattern = y) ∨
      (maxBytes ≤ 0 ∨ ((applyFilter compile raw pattern).length : Int) ≤ maxBytes) := by
    rcases h with h | h | h
    · exact Or.inl (fun y => by simp [applyFilter, h])
    · exact Or.inl (fun y => by simp [applyFilter, h])
    · exact Or.inr h
  unfold Shape
  rcases hid with hid | hcap
  · rw [hid, hid]
    exact truncateOutput_idem raw maxBytes tailLines
  · have hbytes : lastBytes maxBytes (applyFilter compile raw pattern) =
        applyFilter compile raw pattern := by
      apply lastBytes_of_le
      intro hm
      rcases hcap with hcap | hcap
      · omega
      · exact hcap
    have hz : (truncateOutput (applyFilter compile raw pattern) maxBytes tailLines).1 =
        lastLines tailLines (applyFilter compile raw pattern) := by
      rw [truncateOutput_fst, hbytes]
    have hfix : applyFilter compile
        (truncateOutput (applyFilter compile raw pattern) maxBytes tailLines).1 pattern =
        (truncateOutput (applyFilter compile raw pattern) maxBytes tailLines).1 := by
      rw [hz]
      exact applyFilter_lastLines compile raw pattern tailLines
    rw [hfix]
    exact truncateOutput_idem _ maxBytes tailLines

/-- Witness of the amended C8: with the default byte cap the filtered output
is not cut and shaping twice equals shaping once. -/
theorem shape_idempotent_of_uncut_witness :
    ((applyFilter caretF rawFaFb "^f").length : Int) ≤ 16384 ∧
    (Shape caretF (Shape caretF rawFaFb "^f" 16384 1).1 "^f" 16384 1).1 =
      (Shape caretF rawFaFb "^f" 16384 1).1 :=
  ⟨by decide,
    shape_idempotent_of_uncut caretF rawFaFb "^f" 16384 1 (Or.inr (Or.inr (Or.inr (by decide))))⟩

/-- C9: for every output, every `maxBytes` and every `tailLines > 0`, the bytes
`truncateOutput` returns have at most `tailLines` newline-separated lines
(counted as `bytes.Split` does, hence also in the usual sense), and the
truncation flag is true when the input has more than `tailLines` lines. -/
theorem truncateOutput_line_cap (x : List Byte) (maxBytes tailLines : Int)
    (ht : 0 < tailLines) :
    (lineCount (truncateOutput x maxBytes tailLines).1 : Int) ≤ tailLines ∧
    (textLines (truncateOutput x maxBytes tailLines).1 : Int) ≤ tailLines ∧
    (tailLines < (lineCount x : Int) → (truncateOutput x maxBytes tailLines).2 = true) ∧
    (tailLines < (textLines x : Int) → (truncateOutput x maxBytes tailLines).2 = true) := by
  have h1 : (lineCount (truncateOutput x maxBytes tailLines).1 : Int) ≤ tailLines := by
    rw [truncateOutput_fst]
    exact lineCount_lastLines tailLines _ ht
  refine ⟨h1, ?_, truncateOutput_flag x maxBytes tailLines ht, ?_⟩
  · have := textLines_le_lineCount (truncateOutput x maxBytes tailLines).1
    omega
  · intro hx
    apply truncateOutput_flag x maxBytes tailLines ht
    have := textLines_le_lineCount x
    omega

theorem lineCount_lines300 : lineCount lines300 = 300 := by
  unfold lineCount lines300
  rw [bytesSplit_bytesJoin]
  · exact List.length_replicate _ _
  · intro e
    have hlen := congrArg List.length e
    rw [List.length_replicate] at hlen
    exact absurd hlen (by decide)
  · intro l hl
    rw [List.eq_of_mem_replicate hl]
    decide

/-- Witness of C9: 300 lines with `tailLines = 200` and `maxBytes = 16384`
give at most 200 lines and a true truncation flag. -/
theorem truncateOutput_line_cap_witness :
    (0 : Int) < 200 ∧ (200 : Int) < (lineCount lines300 : Int) ∧
    (lineCount (truncateOutput lines300 16384 200).1 : Int) ≤ 200 ∧
    (truncateOutput lines300 16384 200).2 = true :=
  have hlines : (200 : Int) < (lineCount lines300 : Int) := by
    rw [lineCount_lines300]
    decide
  ⟨by decide, hlines,
    (truncateOutput_line_cap lines300 16384 200 (by decide)).1,
    (truncateOutput_line_cap lines300 16384 200 (by decide)).2.2.1 hlines⟩

/-- C10: `truncateOutput` applies the byte cap before the line cap: the bytes it
returns are `lastLines tailLines (lastBytes maxBytes x)`; they are a suffix of
`x`, and at most `maxBytes` long when `maxBytes > 0`. -/
theorem truncateOutput_bytes_then_lines (x : List Byte) (maxBytes tailLines : Int) :
    (truncateOutput x maxBytes tailLines).1 = lastLines tailLines (lastBytes maxBytes x) ∧
    (truncateOutput x maxBytes tailLines).1 <:+ x ∧
    (0 < maxBytes → ((truncateOutput x maxBytes tailLines).1.length : Int) ≤ maxBytes) := by
  have h := truncateOutput_fst x maxBytes tailLines
  refine ⟨h, ?_, ?_⟩
  · rw [h]
    exact (lastLines_suffix _ _).trans (lastBytes_suffix _ _)
  · intro hm
    rw [h]
    have h1 := (lastLines_suffix tailLines (lastBytes maxBytes x)).length_le
    have h2 := length_lastBytes maxBytes x hm
    omega

/-- Witness of C10: the output `fa`, newline, `fb` with `maxBytes = 4` and
`tailLines = 1`. -/
theorem truncateOutput_bytes_then_lines_witness :
    (0 : Int) < 4 ∧
    (truncateOutput rawFaFb 4 1).1 = lastLines 1 (lastBytes 4 rawFaFb) ∧
    ((truncateOutput rawFaFb 4 1).1.length : Int) ≤ 4 :=
  ⟨by decide, (truncateOutput_bytes_then_lines rawFaFb 4 1).1,
    (truncateOutput_bytes_then_lines rawFaFb 4 1).2.2 (by decide)⟩

/-! ### Unset caps -/

/-- With no positive cap `truncateOutput` returns its input and a false flag. -/
theorem truncateOutput_no_cap (x : List Byte) (m t : Int) (hm : m ≤ 0) (ht : t ≤ 0) :
    truncateOutput x m t = (x, false) := by
  unfold truncateOutput
  have hm' : ¬ (m > 0 ∧ (x.length : Int) > m) := fun h => by omega
  split
  · rfl
  · simp only [hm', if_false, ht, if_true]

/-- An output within both caps is returned as it is, with a false flag. -/
theorem truncateOutput_within_caps (x : List Byte) (m t : Int)
    (hm : (x.length : Int) ≤ m) (ht : (lineCount x : Int) ≤ t) :
    truncateOutput x m t = (x, false) := by
  unfold truncateOutput
  have hm' : ¬ (m > 0 ∧ (x.length : Int) > m) := fun h => by omega
  unfold lineCount at ht
  have ht' : ¬ ((bytesSplit x).length : Int) > t := by omega
  split
  · rfl
  · simp only [hm', if_false, ht']
    split
    · rfl
    · rw [bytesJoin_bytesSplit]

/-- C11, counterexample: on the 300-line output the unset caps `0, 0` return
the whole output with a false flag, while the caps 16384 and 200 truncate it and
raise the flag; the two calls differ. -/
theorem unset_caps_are_not_defaults :
    truncateOutput lines300 0 0 = (lines300, false) ∧
    (truncateOutput lines300 DefaultCommandMaxBytes DefaultCommandTailLines).2 = true ∧
    truncateOutput lines300 0 0 ≠
      truncateOutput lines300 DefaultCommandMaxBytes DefaultCommandTailLines := by
  have h0 := truncateOutput_no_cap lines300 0 0 (le_refl _) (le_refl _)
  have h1 : (truncateOutput lines300 DefaultCommandMaxBytes DefaultCommandTailLines).2
      = true := by
    apply truncateOutput_flag
    · decide
    · rw [lineCount_lines300]
      decide
  refine ⟨h0, h1, ?_⟩
  intro e
  rw [h0] at e
  rw [← e] at h1
  cases h1

/-- C11, amended: a zero cap disables its limit. For every output,
`truncateOutput(output, 0, 0)` returns the output unchanged with a false flag;
it agrees with `truncateOutput(output, 16384, 200)` on the outputs that are at
most 16384 bytes and at most 200 lines long. -/
theorem zero_caps_disable_limits (x : List Byte) :
    truncateOutput x 0 0 = (x, false) ∧
    ((x.length : Int) ≤ DefaultCommandMaxBytes →
      (lineCount x : Int) ≤ DefaultCommandTailLines →
      truncateOutput x DefaultCommandMaxBytes DefaultCommandTailLines =
        truncateOutput x 0 0) := by
  have h0 := truncateOutput_no_cap x 0 0 (le_refl _) (le_refl _)
  refine ⟨h0, ?_⟩
  intro hm ht
  rw [h0]
  exact truncateOutput_within_caps x _ _ hm ht

/-- Witness of the amended C11 on the two-line output `fa`, newline, `fb`. -/
theorem zero_caps_disable_limits_witness :
    ((rawFaFb.length : Nat) : Int) ≤ DefaultCommandMaxBytes ∧
    (lineCount rawFaFb : Int) ≤ DefaultCommandTailLines ∧
    truncateOutput rawFaFb DefaultCommandMaxBytes DefaultCommandTailLines =
      truncateOutput rawFaFb 0 0 :=
  ⟨by decide, by decide,
    (zero_caps_disable_limits rawFaFb).2 (by decide) (by decide)⟩

/-! ### Duplicate IDs -/

theorem hasPendingLoop_iff (m : StepMap) :
    hasPendingLoop m = true ↔ ∃ kv ∈ m, kv.2.Status = PlanPending := by
  induction m with
  | nil => simp [hasPendingLoop]
  | cons kv rest ih =>
    obtain ⟨k, v⟩ := kv
    by_cases hp : v.Status = PlanPending
    · simp [hasPendingLoop, hp]
    · simp [hasPendingLoop, hp, ih]

theorem wf_hasPending_iff {pm : PlanManager} (h : WF pm) :
    HasPending pm = true ↔ ∃ t ∈ Snapshot pm, t.Status = PlanPending := by
  rw [HasPending, hasPendingLoop_iff]
  constructor
  · rintro ⟨kv, hkv, hp⟩
    exact ⟨kv.2, (wf_mem_snapshot_iff h kv.2).2 ⟨kv.1, hkv⟩, hp⟩
  · rintro ⟨t, ht, hp⟩
    obtain ⟨k, hk⟩ := (wf_mem_snapshot_iff h t).1 ht
    exact ⟨(k, t), hk, hp⟩

theorem mapGet_replace (pm : PlanManager) (steps : List PlanStep) (k : String) :
    mapGet (Replace pm steps).steps k = lastWithID steps k := by
  rw [Replace, mapGet_foldl_replaceStep, lastWithID]
  cases steps.reverse.find? (fun t => decide (t.ID = k)) <;> rfl

theorem lastWithID_eq_some_iff (steps : List PlanStep) (id : String) (t : PlanStep) :
    lastWithID steps id = some t ↔
      ∃ pre post, steps = pre ++ t :: post ∧ t.ID = id ∧ ∀ u ∈ post, u.ID ≠ id := by
  rw [lastWithID, List.find?_eq_some]
  constructor
  · rintro ⟨ht, as, bs, hrev, has⟩
    refine ⟨bs.reverse, as.reverse, ?_, by simpa using ht, ?_⟩
    · have := congrArg List.reverse hrev
      simpa using this
    · intro u hu
      have := has u (List.mem_reverse.1 hu)
      simpa using this
  · rintro ⟨pre, post, hsteps, hid, hpost⟩
    refine ⟨by simpa using hid, post.reverse, pre.reverse, ?_, ?_⟩
    · rw [hsteps]
      simp
    · intro u hu
      have := hpost u (List.mem_reverse.1 hu)
      simpa using this

theorem lastWithID_of_mem (steps : List PlanStep) (s : PlanStep) (hs : s ∈ steps) :
    ∃ t, lastWithID steps s.ID = some t := by
  cases h : lastWithID steps s.ID with
  | some t => exact ⟨t, rfl⟩
  | none =>
    rw [lastWithID, List.find?_eq_none] at h
    have := h s (List.mem_reverse.2 hs)
    simp at this

theorem filterMap_ids_getD (g : String → Option PlanStep) (l : List PlanStep)
    (h : ∀ s ∈ l, ∃ t, g s.ID = some t) :
    (l.map PlanStep.ID).filterMap g = l.map (fun s => (g s.ID).getD s) := by
  induction l with
  | nil => rfl
  | cons x xs ih =>
    obtain ⟨t, ht⟩ := h x (List.mem_cons_self _ _)
    rw [List.map_cons, List.filterMap_cons, ht, List.map_cons, ht,
      ih (fun s hs => h s (List.mem_cons_of_mem _ hs))]
    rfl

theorem snapshot_replace (pm : PlanManager) (steps : List PlanStep) :
    Snapshot (Replace pm steps) =
      steps.map (fun s => (lastWithID steps s.ID).getD s) := by
  rw [snapshot_eq]
  have horder : (Replace pm steps).order = steps.map PlanStep.ID := by
    simp [Replace, order_foldl_replaceStep]
  have hget : mapGet (Replace pm steps).steps = lastWithID steps :=
    funext (mapGet_replace pm steps)
  rw [horder, hget]
  exact filterMap_ids_getD _ _ (lastWithID_of_mem steps)

theorem eq_of_map_eq_self (f : PlanStep → PlanStep) (l : List PlanStep)
    (h : l.map f = l) : ∀ x ∈ l, f x = x := by
  induction l with
  | nil =>
    intro x hx
    cases hx
  | cons y ys ih =>
    rw [List.map_cons, List.cons.injEq] at h
    intro x hx
    rcases List.mem_cons.1 hx with e | hmem
    · rw [e]
      exact h.1
    · exact ih h.2 x hmem

/-- C17: for every submitted list, `Snapshot()` after `Replace(steps)` has the
length of `steps` and the same ID at every position, and every position holds
the last submitted step with the ID of that position; so when two entries with
one ID differ, `Snapshot()` differs from `steps`. `Ready()` returns only such
last entries, and `HasPending()` and `Completed()` are decided by the last
entries alone. -/
theorem replace_duplicates_keep_last (pm : PlanManager) (steps : List PlanStep) :
    (Snapshot (Replace pm steps)).length = steps.length ∧
    (Snapshot (Replace pm steps)).map PlanStep.ID = steps.map PlanStep.ID ∧
    Snapshot (Replace pm steps) = steps.map (fun s => (lastWithID steps s.ID).getD s) ∧
    (∀ s ∈ steps, ∃ t, lastWithID steps s.ID = some t ∧
      ∃ pre post, steps = pre ++ t :: post ∧ t.ID = s.ID ∧ ∀ u ∈ post, u.ID ≠ s.ID) ∧
    ((∃ s ∈ steps, ∃ s' ∈ steps, s.ID = s'.ID ∧ s ≠ s') →
      Snapshot (Replace pm steps) ≠ steps) ∧
    (∀ r, Ready (Replace pm steps) = some r →
      ∃ s ∈ steps, lastWithID steps s.ID = some r) ∧
    (HasPending (Replace pm steps) = true ↔
      ∃ s ∈ steps, ∃ t, lastWithID steps s.ID = some t ∧ t.Status = PlanPending) ∧
    (Completed (Replace pm steps) = true ↔
      steps ≠ [] ∧
        ∀ s ∈ steps, ∀ t, lastWithID steps s.ID = some t → t.Status = PlanCompleted) := by
  have hsnap := snapshot_replace pm steps
  have hwf := wf_replace pm steps
  have hlast : ∀ s ∈ steps, ∃ t, lastWithID steps s.ID = some t ∧
      ∃ pre post, steps = pre ++ t :: post ∧ t.ID = s.ID ∧ ∀ u ∈ post, u.ID ≠ s.ID := by
    intro s hs
    obtain ⟨t, ht⟩ := lastWithID_of_mem steps s hs
    exact ⟨t, ht, (lastWithID_eq_some_iff steps s.ID t).1 ht⟩
  have hmem : ∀ t, t ∈ Snapshot (Replace pm steps) ↔
      ∃ s ∈ steps, lastWithID steps s.ID = some t := by
    intro t
    rw [hsnap, List.mem_map]
    constructor
    · rintro ⟨s, hs, hst⟩
      obtain ⟨t', ht', _⟩ := hlast s hs
      rw [ht'] at hst
      exact ⟨s, hs, by rw [ht']; exact congrArg some hst⟩
    · rintro ⟨s, hs, hst⟩
      exact ⟨s, hs, by rw [hst]; rfl⟩
  refine ⟨by rw [hsnap, List.length_map], ?_, hsnap, hlast, ?_, ?_, ?_, ?_⟩
  · rw [hsnap, List.map_map]
    apply List.map_congr_left
    intro s hs
    obtain ⟨t, ht, _, _, _, hid, _⟩ := hlast s hs
    simp [ht, hid]
  · rintro ⟨s, hs, s', hs', hid, hne⟩ heq
    rw [hsnap] at heq
    have hfix := eq_of_map_eq_self _ steps heq
    obtain ⟨t, ht, _⟩ := hlast s hs
    have h1 := hfix s hs
    have h2 := hfix s' hs'
    simp only [← hid] at h2
    simp only [ht, Option.getD_some] at h1 h2
    exact hne (h1.symm.trans h2)
  · intro r hr
    rw [ready_eq_find] at hr
    exact (hmem r).1 (List.mem_of_find?_eq_some hr)
  · rw [wf_hasPending_iff hwf]
    constructor
    · rintro ⟨t, ht, hp⟩
      obtain ⟨s, hs, hst⟩ := (hmem t).1 ht
      exact ⟨s, hs, t, hst, hp⟩
    · rintro ⟨s, hs, t, hst, hp⟩
      exact ⟨t, (hmem t).2 ⟨s, hs, hst⟩, hp⟩
  · rw [wf_completed_iff hwf]
    constructor
    · rintro ⟨hne, hall⟩
      refine ⟨?_, ?_⟩
      · intro e
        rw [hsnap, e] at hne
        exact hne rfl
      · intro s hs t hst
        exact hall t ((hmem t).2 ⟨s, hs, hst⟩)
    · rintro ⟨hne, hall⟩
      refine ⟨?_, ?_⟩
      · intro e
        rw [hsnap] at e
        exact hne (List.map_eq_nil_iff.1 e)
      · intro t ht
        obtain ⟨s, hs, hst⟩ := (hmem t).1 ht
        exact hall s hs t hst

/-- Witness of C17 on the list `a` (pending), `a` (completed): the two entries
differ, the snapshot differs from the list, and only the completed entry is seen. -/
theorem replace_duplicates_keep_last_witness :
    (∃ s ∈ planDuplicate, ∃ s' ∈ planDuplicate, s.ID = s'.ID ∧ s ≠ s') ∧
    Snapshot (Replace NewPlanManager planDuplicate) ≠ planDuplicate ∧
    Ready (Replace NewPlanManager planDuplicate) = none ∧
    HasPending (Replace NewPlanManager planDuplicate) = false ∧
    Completed (Replace NewPlanManager planDuplicate) = true :=
  have hdup : ∃ s ∈ planDuplicate, ∃ s' ∈ planDuplicate, s.ID = s'.ID ∧ s ≠ s' :=
    ⟨pendingStep "a" (some []), by simp [planDuplicate],
      PlanStep.mk "a" "again" PlanCompleted none echoCommand none, by simp [planDuplicate],
      rfl, by simp [pendingStep]⟩
  ⟨hdup, (replace_duplicates_keep_last NewPlanManager planDuplicate).2.2.2.2.1 hdup,
    rfl, rfl, rfl⟩

/-! ## The command runner -/

theorem execute_blank (w : World) (step : PlanStep)
    (h : w.trimSpace step.Command.Shell = "" ∨ w.trimSpace step.Command.Run = "") :
    Execute w step = ExecResult.returned emptyPayload
      (some (GoError.message ("command: invalid shell or run for step " ++ step.ID))) := by
  unfold Execute
  rw [if_pos h]

/-- A process that cannot be started: the zero observation and an error. -/
theorem execute_start_failed (w : World) (step : PlanStep) (err : GoError)
    (h : ¬ (w.trimSpace step.Command.Shell = "" ∨ w.trimSpace step.Command.Run = ""))
    (hp : w.process step = ProcOutcome.startFailed err) :
    Execute w step = ExecResult.returned emptyPayload
      (some (GoError.wrap "command: start: " err)) := by
  unfold Execute
  rw [if_neg h, hp]

/-- Any non-nil `runErr` reaches the ill-typed `errors.As` of line 90. -/
theorem finishExecute_error (w : World) (step : PlanStep) (err : GoError)
    (stdout stderr : List Byte) :
    finishExecute w step (some err) stdout stderr =
      ExecResult.panicked "errors: *target must be interface or implement error" := by
  simp [finishExecute, errorsAsExitErrorStruct]

theorem execute_wait_error (w : World) (step : PlanStep) (err : GoError)
    (stdout stderr : List Byte)
    (h : ¬ (w.trimSpace step.Command.Shell = "" ∨ w.trimSpace step.Command.Run = ""))
    (hp : w.process step = ProcOutcome.waited (some err) stdout stderr) :
    Execute w step =
      ExecResult.panicked "errors: *target must be interface or implement error" := by
  unfold Execute
  rw [if_neg h, hp]
  exact finishExecute_error w step err stdout stderr

theorem execute_timed_out (w : World) (step : PlanStep) (stdout stderr : List Byte)
    (h : ¬ (w.trimSpace step.Command.Shell = "" ∨ w.trimSpace step.Command.Run = ""))
    (hp : w.process step = ProcOutcome.timedOut stdout stderr) :
    Execute w step =
      ExecResult.panicked "errors: *target must be interface or implement error" := by
  unfold Execute
  rw [if_neg h, hp]
  exact finishExecute_error w step _ stdout stderr

/-- Exit status 0: the exit code is set to 0, the details are empty and no
error is returned. -/
theorem execute_exit_zero (w : World) (step : PlanStep) (stdout stderr : List Byte)
    (h : ¬ (w.trimSpace step.Command.Shell = "" ∨ w.trimSpace step.Command.Run = ""))
    (hp : w.process step = ProcOutcome.waited none stdout stderr) :
    ∃ observation, Execute w step = ExecResult.returned observation none ∧
      observation.ExitCode = some 0 ∧ observation.Details = "" := by
  unfold Execute
  rw [if_neg h, hp]
  exact ⟨_, rfl, rfl, rfl⟩

theorem sample_not_blank (outcome : ProcOutcome)
    (reply : Except GoError (PlanResponse × ToolCall)) :
    ¬ ((sampleWorld outcome reply).trimSpace (pendingStep "a" (some [])).Command.Shell = "" ∨
      (sampleWorld outcome reply).trimSpace (pendingStep "a" (some [])).Command.Run = "") := by
  show ¬ (sampleTrimSpace "/bin/sh" = "" ∨ sampleTrimSpace "echo hi" = "")
  decide

/-- C14, the code at the failing inputs. For a step with a non-blank shell and
command: when the process cannot be started `Execute` returns the zero
observation, whose details are empty; when the process exits with status 3, and
when it is killed for timeout, `Execute` panics in `errors.As` and returns
nothing; only exit status 0 is classified as the claim says. -/
theorem execute_failure_paths :
    Execute (sampleWorld (ProcOutcome.startFailed (GoError.message "no such file")) failingReply)
        (pendingStep "a" (some [])) =
      ExecResult.returned emptyPayload
        (some (GoError.wrap "command: start: " (GoError.message "no such file"))) ∧
    emptyPayload.Details = "" ∧ emptyPayload.ExitCode = none ∧
    Execute (sampleWorld (ProcOutcome.waited (some (GoError.exitError 3)) [] []) failingReply)
        (pendingStep "a" (some [])) =
      ExecResult.panicked "errors: *target must be interface or implement error" ∧
    Execute (sampleWorld (ProcOutcome.timedOut [] []) failingReply)
        (pendingStep "a" (some [])) =
      ExecResult.panicked "errors: *target must be interface or implement error" ∧
    ∃ observation,
      Execute (sampleWorld (ProcOutcome.waited none [] []) failingReply)
          (pendingStep "a" (some [])) = ExecResult.returned observation none ∧
      observation.ExitCode = some 0 ∧ observation.Details = "" :=
  ⟨execute_start_failed _ _ _ (sample_not_blank _ _) rfl, rfl, rfl,
    execute_wait_error _ _ _ _ _ (sample_not_blank _ _) rfl,
    execute_timed_out _ _ _ _ (sample_not_blank _ _) rfl,
    execute_exit_zero _ _ _ _ (sample_not_blank _ _) rfl⟩

/-! ## The orchestrator -/

@[simp] theorem appendMessage_trace (w : World) (rt : Runtime) (msg : ChatMessage) :
    (appendMessage w rt msg).trace = rt.trace := rfl

@[simp] theorem appendMessage_planManager (w : World) (rt : Runtime) (msg : ChatMessage) :
    (appendMessage w rt msg).planManager = rt.planManager := rfl

@[simp] theorem appendMessage_options (w : World) (rt : Runtime) (msg : ChatMessage) :
    (appendMessage w rt msg).options = rt.options := rfl

@[simp] theorem appendMessage_reader (w : World) (rt : Runtime) (msg : ChatMessage) :
    (appendMessage w rt msg).reader = rt.reader := rfl

@[simp] theorem readString_trace (rt : Runtime) : (readString rt).2.trace = rt.trace := by
  unfold readString
  cases rt.reader <;> rfl

@[simp] theorem readString_planManager (rt : Runtime) :
    (readString rt).2.planManager = rt.planManager := by
  unfold readString
  cases rt.reader <;> rfl

@[simp] theorem readString_history (rt : Runtime) :
    (readString rt).2.history = rt.history := by
  unfold readString
  cases rt.reader <;> rfl

@[simp] theorem readString_options (rt : Runtime) :
    (readString rt).2.options = rt.options := by
  unfold readString
  cases rt.reader <;> rfl

@[simp] theorem reportObservation_trace (w : World) (rt : Runtime) (step : PlanStep)
    (observation : PlanObservationPayload) :
    (reportObservation w rt step observation).trace = rt.trace := by
  unfold reportObservation
  split
  · split <;> rfl
  · rfl

/-- The history `queryAssistant` sends: the stored one, after the user message
when one is given. -/
theorem queryAssistant_trace (w : World) (rt : Runtime) (userMessage : String) :
    (queryAssistant w rt userMessage).1.trace =
      rt.trace ++ [Event.requested
        (if userMessage ≠ "" then
          (appendMessage w rt { Role := RoleUser, Content := userMessage }).history
        else rt.history)] := by
  unfold queryAssistant
  by_cases hm : userMessage = ""
  · simp only [hm, ne_eq, not_true_eq_false, if_false]
    split <;> rfl
  · simp only [hm, ne_eq, not_false_eq_true, if_true]
    split <;> rfl

/-- The events of the execution part of a tick: the call of `Execute`, then,
when `Execute` returns, the call of `UpdateStatus`, then at most one request. -/
theorem runStep_trace (w : World) (rt : Runtime) (step : PlanStep) :
    ∃ requests : List (List ChatMessage),
      (runStep w rt step).rt.trace =
        rt.trace ++ Event.executed step ::
          ((match Execute w step with
            | ExecResult.panicked _ => []
            | ExecResult.returned observation err =>
              [Event.updated step.ID (if err.isSome then PlanFailed else PlanCompleted)
                (UpdateStatus rt.planManager step.ID
                  (if err.isSome then PlanFailed else PlanCompleted)
                  (some (PlanObservation.mk (some observation)))).1]) ++
            requests.map Event.requested) := by
  unfold runStep
  cases hE : Execute w step with
  | panicked message => exact ⟨[], by simp [TickResult.rt]⟩
  | returned observation err =>
    simp only
    cases hU : (UpdateStatus rt.planManager step.ID
        (if err.isSome then PlanFailed else PlanCompleted)
        (some (PlanObservation.mk (some observation)))).2 with
    | some text => exact ⟨[], by simp [TickResult.rt]⟩
    | none =>
      simp only [TickResult.rt, queryAssistant_trace, reportObservation_trace]
      exact ⟨[(reportObservation w _ step observation).history], by simp; rfl⟩

theorem filterMap_requested_asExecuted (requests : List (List ChatMessage)) :
    (requests.map Event.requested).filterMap Event.asExecuted = [] := by
  induction requests with
  | nil => rfl
  | cons r rest ih => simp [List.filterMap_cons, Event.asExecuted]

theorem filterMap_requested_asUpdated (requests : List (List ChatMessage)) :
    (requests.map Event.requested).filterMap Event.asUpdated = [] := by
  induction requests with
  | nil => rfl
  | cons r rest ih => simp [List.filterMap_cons, Event.asUpdated]

theorem newEvents_runStep (w : World) (before rt : Runtime) (step : PlanStep)
    (htrace : rt.trace = before.trace) :
    ∃ requests : List (List ChatMessage),
      newEvents before (runStep w rt step) =
        Event.executed step ::
          ((match Execute w step with
            | ExecResult.panicked _ => []
            | ExecResult.returned observation err =>
              [Event.updated step.ID (if err.isSome then PlanFailed else PlanCompleted)
                (UpdateStatus rt.planManager step.ID
                  (if err.isSome then PlanFailed else PlanCompleted)
                  (some (PlanObservation.mk (some observation)))).1]) ++
            requests.map Event.requested) := by
  obtain ⟨requests, h⟩ := runStep_trace w rt step
  refine ⟨requests, ?_⟩
  rw [newEvents, h, ← htrace, List.drop_left]

/-- The execution part of a tick runs the command of its step and no other. -/
theorem executedSteps_runStep (w : World) (before rt : Runtime) (step : PlanStep)
    (htrace : rt.trace = before.trace) :
    executedSteps before (runStep w rt step) = [step] := by
  obtain ⟨requests, h⟩ := newEvents_runStep w before rt step htrace
  rw [executedSteps, h]
  cases Execute w step <;>
    simp [List.filterMap_cons, List.filterMap_append, Event.asExecuted,
      filterMap_requested_asExecuted]

/-- The execution part of a tick writes the store once when `Execute` returns
and not at all when it panics. -/
theorem storeUpdates_runStep (w : World) (before rt : Runtime) (step : PlanStep)
    (htrace : rt.trace = before.trace) :
    storeUpdates before (runStep w rt step) =
      match Execute w step with
      | ExecResult.panicked _ => []
      | ExecResult.returned observation err =>
        [(step.ID, (if err.isSome then PlanFailed else PlanCompleted),
          (UpdateStatus rt.planManager step.ID
            (if err.isSome then PlanFailed else PlanCompleted)
            (some (PlanObservation.mk (some observation)))).1)] := by
  obtain ⟨requests, h⟩ := newEvents_runStep w before rt step htrace
  rw [storeUpdates, h]
  cases Execute w step <;>
    simp [List.filterMap_cons, List.filterMap_append, Event.asUpdated,
      filterMap_requested_asUpdated]

theorem newEvents_self (rt : Runtime) (executed : Bool) (err : Option GoError)
    (after : Runtime) (h : after.trace = rt.trace) :
    newEvents rt (TickResult.returned executed err after) = [] := by
  simp [newEvents, TickResult.rt, h]

theorem newEvents_queryAssistant (w : World) (rt : Runtime) (userMessage : String)
    (executed : Bool) :
    newEvents rt (TickResult.returned executed (queryAssistant w rt userMessage).2
        (queryAssistant w rt userMessage).1) =
      [Event.requested
        (if userMessage ≠ "" then
          (appendMessage w rt { Role := RoleUser, Content := userMessage }).history
        else rt.history)] := by
  rw [newEvents]
  simp only [TickResult.rt, queryAssistant_trace, List.drop_left]


/-- With auto-approve on, a tick on a ready step is its execution part. -/
theorem tick_auto (w : World) (rt : Runtime) (step : PlanStep)
    (hready : Ready rt.planManager = some step) (hauto : rt.options.AutoApprove = true) :
    executePlanIfReady w rt = runStep w rt step := by
  unfold executePlanIfReady
  rw [hready]
  simp [hauto]

/-- Without a human and without auto-approve, a tick on a ready step sends the
plan reminder. -/
theorem tick_no_human (w : World) (rt : Runtime) (step : PlanStep)
    (hready : Ready rt.planManager = some step) (hauto : rt.options.AutoApprove = false)
    (hhuman : rt.options.NoHuman = true) :
    executePlanIfReady w rt =
      TickResult.returned true
        (queryAssistant w rt rt.options.PlanReminderMessage).2
        (queryAssistant w rt rt.options.PlanReminderMessage).1 := by
  unfold executePlanIfReady
  rw [hready]
  simp [hauto, hhuman]

/-- In a human session without auto-approve, the tick reads the answer. -/
theorem tick_human (w : World) (rt : Runtime) (step : PlanStep)
    (hready : Ready rt.planManager = some step) (hauto : rt.options.AutoApprove = false)
    (hhuman : rt.options.NoHuman = false) :
    executePlanIfReady w rt =
      match (readString rt).1 with
      | ReadResult.failed _ err =>
        if err.isEOF then TickResult.returned false (some err) (readString rt).2
        else TickResult.returned false
          (some (GoError.wrap "runtime: read approval: " err)) (readString rt).2
      | ReadResult.line answer =>
        if w.trimSpace (w.toLower answer) ≠ "y" ∧ w.trimSpace (w.toLower answer) ≠ "yes" then
          TickResult.returned true none (readString rt).2
        else runStep w (readString rt).2 step := by
  unfold executePlanIfReady
  rw [hready]
  simp [hauto, hhuman]

/-- An approved tick is the execution part, started after the answer was read
when one was asked for. -/
theorem tick_approved (w : World) (rt : Runtime) (step : PlanStep)
    (hready : Ready rt.planManager = some step) (happ : approved w rt) :
    ∃ start : Runtime, start.trace = rt.trace ∧ start.planManager = rt.planManager ∧
      executePlanIfReady w rt = runStep w start step := by
  rcases happ with hauto | ⟨hauto, hhuman, answer, hread, hyes⟩
  · exact ⟨rt, rfl, rfl, tick_auto w rt step hready hauto⟩
  · refine ⟨(readString rt).2, readString_trace rt, readString_planManager rt, ?_⟩
    rw [tick_human w rt step hready hauto hhuman, hread]
    have : ¬ (w.trimSpace (w.toLower answer) ≠ "y" ∧ w.trimSpace (w.toLower answer) ≠ "yes") := by
      rintro ⟨h1, h2⟩
      rcases hyes with h | h
      · exact h1 h
      · exact h2 h
    simp only [this, if_false]

/-- A tick that is not approved runs no command and writes no status: it sends
the reminder, or skips the step, or returns the read error. -/
theorem tick_not_approved (w : World) (rt : Runtime) (step : PlanStep)
    (hready : Ready rt.planManager = some step) (hnot : ¬ approved w rt) :
    (rt.options.NoHuman = true ∧
      executePlanIfReady w rt =
        TickResult.returned true
          (queryAssistant w rt rt.options.PlanReminderMessage).2
          (queryAssistant w rt rt.options.PlanReminderMessage).1) ∨
    (rt.options.NoHuman = false ∧
      ∃ err after, after.trace = rt.trace ∧ after.planManager = rt.planManager ∧
        after.history = rt.history ∧
        executePlanIfReady w rt = TickResult.returned true err after ∧ err = none) ∨
    (rt.options.NoHuman = false ∧
      ∃ text readErr err after, (readString rt).1 = ReadResult.failed text readErr ∧
        after.trace = rt.trace ∧ after.planManager = rt.planManager ∧
        after.history = rt.history ∧
        executePlanIfReady w rt = TickResult.returned false (some err) after ∧
        (readErr.isEOF = true → err = readErr)) := by
  have hauto : rt.options.AutoApprove = false := by
    cases h : rt.options.AutoApprove with
    | false => rfl
    | true => exact absurd (Or.inl h) hnot
  cases hhuman : rt.options.NoHuman with
  | true => exact Or.inl ⟨rfl, tick_no_human w rt step hready hauto hhuman⟩
  | false =>
    right
    have htick := tick_human w rt step hready hauto hhuman
    cases hread : (readString rt).1 with
    | failed text readErr =>
      right
      rw [hread] at htick
      refine ⟨rfl, text, readErr,
        (if readErr.isEOF then readErr else GoError.wrap "runtime: read approval: " readErr),
        (readString rt).2, rfl, readString_trace rt,
        readString_planManager rt, readString_history rt, ?_, ?_⟩
      · rw [htick]
        by_cases he : readErr.isEOF = true
        · simp only [he, if_true]
        · simp only [he]
          rfl
      · intro he
        simp only [he, if_true]
    | line answer =>
      left
      rw [hread] at htick
      have hno : w.trimSpace (w.toLower answer) ≠ "y" ∧
          w.trimSpace (w.toLower answer) ≠ "yes" := by
        constructor
        · intro h
          exact hnot (Or.inr ⟨hauto, hhuman, answer, hread, Or.inl h⟩)
        · intro h
          exact hnot (Or.inr ⟨hauto, hhuman, answer, hread, Or.inr h⟩)
      refine ⟨rfl, none, (readString rt).2, readString_trace rt, readString_planManager rt,
        readString_history rt, ?_, rfl⟩
      rw [htick]
      exact if_pos hno


/-- A tick that is not approved runs no command and writes no status. -/
theorem not_approved_events (w : World) (rt : Runtime) (step : PlanStep)
    (hready : Ready rt.planManager = some step) (hnot : ¬ approved w rt) :
    executedSteps rt (executePlanIfReady w rt) = [] ∧
      storeUpdates rt (executePlanIfReady w rt) = [] := by
  rcases tick_not_approved w rt step hready hnot with
    ⟨_, htick⟩ | ⟨_, err, after, htrace, _, _, htick, _⟩ |
    ⟨_, text, readErr, err, after, _, htrace, _, _, htick, _⟩
  · rw [executedSteps, storeUpdates, htick, newEvents_queryAssistant]
    exact ⟨rfl, rfl⟩
  · rw [executedSteps, storeUpdates, htick, newEvents_self rt _ _ after htrace]
    exact ⟨rfl, rfl⟩
  · rw [executedSteps, storeUpdates, htick, newEvents_self rt _ _ after htrace]
    exact ⟨rfl, rfl⟩

theorem approved_events (w : World) (rt : Runtime) (step : PlanStep)
    (hready : Ready rt.planManager = some step) (happ : approved w rt) :
    executedSteps rt (executePlanIfReady w rt) = [step] := by
  obtain ⟨start, htrace, _, htick⟩ := tick_approved w rt step hready happ
  rw [htick]
  exact executedSteps_runStep w rt start step htrace

/-- C12: on a ready step, `executePlanIfReady` runs the command of that step
(and of no other) exactly when auto-approve is on, or auto-approve and no-human
mode are off and the answer read, lower-cased and trimmed, is `y` or `yes`.
With no-human mode on and auto-approve off no command is run, no status is
written, and the history sent to the model is the stored history followed by a
user message that carries the plan reminder. When the human answers anything
else, no command is run, nothing is sent, and the plan store and the
conversation history are unchanged. -/
theorem approval_gate (w : World) (rt : Runtime) (step : PlanStep)
    (hready : Ready rt.planManager = some step) :
    (executedSteps rt (executePlanIfReady w rt) = [step] ↔ approved w rt) ∧
    (executedSteps rt (executePlanIfReady w rt) = [] ↔ ¬ approved w rt) ∧
    (rt.options.AutoApprove = false → rt.options.NoHuman = true →
      executedSteps rt (executePlanIfReady w rt) = [] ∧
      storeUpdates rt (executePlanIfReady w rt) = [] ∧
      (rt.options.PlanReminderMessage ≠ "" →
        ∃ msg, requestedHistories rt (executePlanIfReady w rt) = [rt.history ++ [msg]] ∧
          msg.Role = RoleUser ∧ msg.Content = rt.options.PlanReminderMessage)) ∧
    (rt.options.AutoApprove = false → rt.options.NoHuman = false →
      ∀ answer, (readString rt).1 = ReadResult.line answer →
        w.trimSpace (w.toLower answer) ≠ "y" → w.trimSpace (w.toLower answer) ≠ "yes" →
          executedSteps rt (executePlanIfReady w rt) = [] ∧
          requestedHistories rt (executePlanIfReady w rt) = [] ∧
          (executePlanIfReady w rt).rt.planManager = rt.planManager ∧
          (executePlanIfReady w rt).rt.history = rt.history) := by
  have hyes : approved w rt → executedSteps rt (executePlanIfReady w rt) = [step] :=
    approved_events w rt step hready
  have hno : ¬ approved w rt → executedSteps rt (executePlanIfReady w rt) = [] :=
    fun h => (not_approved_events w rt step hready h).1
  refine ⟨⟨?_, hyes⟩, ⟨?_, hno⟩, ?_, ?_⟩
  · intro h
    by_contra hnot
    rw [hno hnot] at h
    cases h
  · intro h happ
    rw [hyes happ] at h
    cases h
  · intro hauto hhuman
    have hnot : ¬ approved w rt := by
      rintro (h | ⟨_, h, _⟩)
      · rw [hauto] at h
        cases h
      · rw [hhuman] at h
        cases h
    refine ⟨hno hnot, (not_approved_events w rt step hready hnot).2, ?_⟩
    intro hmsg
    refine ⟨ChatMessage.mk RoleUser rt.options.PlanReminderMessage "" ""
      (w.clock rt.history) [], ?_, rfl, rfl⟩
    rw [requestedHistories, tick_no_human w rt step hready hauto hhuman,
      newEvents_queryAssistant]
    simp [hmsg, Event.asRequested, appendMessage]
  · intro hauto hhuman answer hread hy hyes'
    have hnot : ¬ approved w rt := by
      rintro (h | ⟨_, _, answer', hread', h⟩)
      · rw [hauto] at h
        cases h
      · rw [hread] at hread'
        cases hread'
        rcases h with h | h
        · exact hy h
        · exact hyes' h
    have htick : executePlanIfReady w rt = TickResult.returned true none (readString rt).2 := by
      rw [tick_human w rt step hready hauto hhuman, hread]
      exact if_pos ⟨hy, hyes'⟩
    refine ⟨hno hnot, ?_, ?_, ?_⟩
    · rw [requestedHistories, htick, newEvents_self rt _ _ _ (readString_trace rt)]
      rfl
    · rw [htick]
      exact readString_planManager rt
    · rw [htick]
      exact readString_history rt


/-- Witness of C12: the human answers `Yes` to the prompt for step `a`, and the
command of step `a` is run. -/
theorem approval_gate_witness :
    Ready (runtimeAB interactiveOptions [ReadResult.line "Yes\n"]).planManager =
      some (pendingStep "a" (some [])) ∧
    approved (sampleWorld (ProcOutcome.waited none [] []) emptyReply)
      (runtimeAB interactiveOptions [ReadResult.line "Yes\n"]) ∧
    executedSteps (runtimeAB interactiveOptions [ReadResult.line "Yes\n"])
      (executePlanIfReady (sampleWorld (ProcOutcome.waited none [] []) emptyReply)
        (runtimeAB interactiveOptions [ReadResult.line "Yes\n"])) =
      [pendingStep "a" (some [])] :=
  have happ : approved (sampleWorld (ProcOutcome.waited none [] []) emptyReply)
      (runtimeAB interactiveOptions [ReadResult.line "Yes\n"]) :=
    Or.inr ⟨rfl, rfl, "Yes\n", rfl, Or.inr (by
      show sampleTrimSpace (sampleToLower "Yes\n") = "yes"
      decide)⟩
  ⟨ready_planAB, happ,
    (approval_gate (sampleWorld (ProcOutcome.waited none [] []) emptyReply)
      (runtimeAB interactiveOptions [ReadResult.line "Yes\n"])
      (pendingStep "a" (some [])) ready_planAB).1.2 happ⟩

/-! ### Status transitions -/

theorem ready_some_stored {pm : PlanManager} {step : PlanStep}
    (h : Ready pm = some step) :
    step ∈ Snapshot pm ∧ step.Status = PlanPending := by
  rw [ready_eq_find] at h
  refine ⟨List.mem_of_find?_eq_some h, ?_⟩
  have := List.find?_some h
  simp only [readyTest, Bool.and_eq_true, decide_eq_true_eq] at this
  exact this.1

theorem wf_ready_mapGet {pm : PlanManager} (hwf : WF pm) {step : PlanStep}
    (h : Ready pm = some step) : mapGet pm.steps step.ID = some step :=
  (wf_mapGet_iff hwf step.ID step).2 ⟨(ready_some_stored h).1, rfl⟩

theorem mapGet_updateStatus (pm : PlanManager) (id : String) (status : PlanStatus)
    (observation : Option PlanObservation) (old : PlanStep)
    (hold : mapGet pm.steps id = some old) (k : String) :
    mapGet (UpdateStatus pm id status observation).1.steps k =
      if k = id then some (updatedStep old status observation) else mapGet pm.steps k := by
  unfold UpdateStatus
  rw [hold]
  simp only [mapGet_mapModify]
  by_cases hk : k = id
  · simp only [hk, if_true, hold, Option.map_some', write_eq_updatedStep]
  · simp only [hk, if_false]

theorem updateStatus_succeeds (pm : PlanManager) (id : String) (status : PlanStatus)
    (observation : Option PlanObservation) (old : PlanStep)
    (hold : mapGet pm.steps id = some old) :
    (UpdateStatus pm id status observation).2 = none ∧
      (UpdateStatus pm id status observation).1.order = pm.order := by
  unfold UpdateStatus
  rw [hold]
  exact ⟨rfl, rfl⟩

theorem updatedStep_status (t : PlanStep) (status : PlanStatus)
    (observation : Option PlanObservation) :
    (updatedStep t status observation).Status = status := rfl

/-- Every ID a generation updates is pending in the store the generation
starts from. -/
theorem runGeneration_pending (outcomes : List (Bool × PlanObservationPayload))
    (pm : PlanManager) (hwf : WF pm) :
    ∀ id ∈ (runGeneration outcomes pm).1,
      ∃ t, mapGet pm.steps id = some t ∧ t.Status = PlanPending := by
  induction outcomes generalizing pm with
  | nil =>
    intro id hid
    simp [runGeneration] at hid
  | cons outcome rest ih =>
    obtain ⟨failed, observation⟩ := outcome
    intro id hid
    unfold runGeneration at hid
    cases hready : Ready pm with
    | none =>
      rw [hready] at hid
      cases hid
    | some step =>
      rw [hready] at hid
      have hget := wf_ready_mapGet hwf hready
      have hpending := (ready_some_stored hready).2
      simp only [List.mem_cons] at hid
      rcases hid with hid | hid
      · rw [hid]
        exact ⟨step, hget, hpending⟩
      · have hwf' := wf_update pm step.ID (if failed then PlanFailed else PlanCompleted)
          (some (PlanObservation.mk (some observation))) hwf
        obtain ⟨t, ht, htp⟩ := ih _ hwf' id hid
        rw [mapGet_updateStatus pm step.ID _ _ step hget id] at ht
        by_cases hk : id = step.ID
        · rw [if_pos hk] at ht
          cases ht
          rw [updatedStep_status] at htp
          cases failed <;> simp [PlanFailed, PlanCompleted, PlanPending] at htp
        · rw [if_neg hk] at ht
          exact ⟨t, ht, htp⟩

/-- Within one plan generation no ID is updated twice. -/
theorem runGeneration_nodup (outcomes : List (Bool × PlanObservationPayload))
    (pm : PlanManager) (hwf : WF pm) : (runGeneration outcomes pm).1.Nodup := by
  induction outcomes generalizing pm with
  | nil => simp [runGeneration]
  | cons outcome rest ih =>
    obtain ⟨failed, observation⟩ := outcome
    unfold runGeneration
    cases hready : Ready pm with
    | none => simp
    | some step =>
      have hget := wf_ready_mapGet hwf hready
      have hwf' := wf_update pm step.ID (if failed then PlanFailed else PlanCompleted)
        (some (PlanObservation.mk (some observation))) hwf
      simp only [List.nodup_cons]
      refine ⟨?_, ih _ hwf'⟩
      intro hmem
      obtain ⟨t, ht, htp⟩ := runGeneration_pending rest _ hwf' step.ID hmem
      rw [mapGet_updateStatus pm step.ID _ _ step hget step.ID, if_pos rfl] at ht
      cases ht
      rw [updatedStep_status] at htp
      cases failed <;> simp [PlanFailed, PlanCompleted, PlanPending] at htp


/-- What a tick writes when `Execute` returns. In a reachable store, on a tick
whose ready step is `step` (a pending step of the plan): a tick that runs no
command writes no status; a tick that runs a command runs that of `step`, and
when `Execute` returns it writes the store once, under the ID of `step`, with
status completed when `Execute` returned no error and failed when it returned
one, every other step unchanged; when `Execute` panics nothing is written. -/
theorem tick_writes_when_execute_returns (w : World) (rt : Runtime) (step : PlanStep)
    (hreach : Reachable rt.planManager) (hready : Ready rt.planManager = some step) :
    step ∈ Snapshot rt.planManager ∧ step.Status = PlanPending ∧
    (executedSteps rt (executePlanIfReady w rt) = [] →
      storeUpdates rt (executePlanIfReady w rt) = []) ∧
    (executedSteps rt (executePlanIfReady w rt) ≠ [] →
      executedSteps rt (executePlanIfReady w rt) = [step] ∧
      (∀ message, Execute w step = ExecResult.panicked message →
        storeUpdates rt (executePlanIfReady w rt) = []) ∧
      ∀ observation err, Execute w step = ExecResult.returned observation err →
        ∃ status after,
          (err = none → status = PlanCompleted) ∧ (err ≠ none → status = PlanFailed) ∧
          storeUpdates rt (executePlanIfReady w rt) = [(step.ID, status, after)] ∧
          mapGet after.steps step.ID =
            some (updatedStep step status (some (PlanObservation.mk (some observation)))) ∧
          (∀ k, k ≠ step.ID → mapGet after.steps k = mapGet rt.planManager.steps k) ∧
          after.order = rt.planManager.order ∧
          Snapshot after = (Snapshot rt.planManager).map
            (fun t => if t.ID = step.ID then
              updatedStep t status (some (PlanObservation.mk (some observation))) else t)) ∧
    ((w.trimSpace step.Command.Shell = "" ∨ w.trimSpace step.Command.Run = "") →
      ∃ observation err, Execute w step = ExecResult.returned observation (some err)) ∧
    (∀ outcomes, (runGeneration outcomes rt.planManager).1.Nodup) := by
  have hwf := reachable_wf hreach
  have hstored := ready_some_stored hready
  have hget := wf_ready_mapGet hwf hready
  refine ⟨hstored.1, hstored.2, ?_, ?_, ?_, fun outcomes => runGeneration_nodup outcomes _ hwf⟩
  · intro hnone
    by_cases happ : approved w rt
    · rw [approved_events w rt step hready happ] at hnone
      cases hnone
    · exact (not_approved_events w rt step hready happ).2
  · intro hsome
    have happ : approved w rt := by
      by_contra hnot
      exact hsome (not_approved_events w rt step hready hnot).1
    obtain ⟨start, htrace, hstore, htick⟩ := tick_approved w rt step hready happ
    have hupdates := storeUpdates_runStep w rt start step htrace
    rw [← htick, hstore] at hupdates
    refine ⟨approved_events w rt step hready happ, ?_, ?_⟩
    · intro message hE
      rw [hupdates, hE]
    · intro observation err hE
      rw [hE] at hupdates
      refine ⟨(if err.isSome then PlanFailed else PlanCompleted), _, ?_, ?_, hupdates, ?_, ?_,
        (updateStatus_succeeds _ _ _ _ step hget).2,
        snapshot_updateStatus hwf _ _ _ step hget⟩
      · intro h
        rw [h]
        rfl
      · intro h
        cases err with
        | none => exact absurd rfl h
        | some e => rfl
      · rw [mapGet_updateStatus _ _ _ _ step hget, if_pos rfl]
      · intro k hk
        rw [mapGet_updateStatus _ _ _ _ step hget, if_neg hk]
  · intro hblank
    exact ⟨_, _, execute_blank w step hblank⟩

/-! ### End of input -/

theorem runLoop_eof_at_approval (w : World) (fuel : Nat) (rt : Runtime) (step : PlanStep)
    (hready : Ready rt.planManager = some step) (hauto : rt.options.AutoApprove = false)
    (hhuman : rt.options.NoHuman = false) (text : String) (err : GoError)
    (hread : (readString rt).1 = ReadResult.failed text err) (heof : err.isEOF = true) :
    runLoop w (fuel + 1) rt = RunResult.returned (some err) (readString rt).2 := by
  unfold runLoop
  rw [tick_human w rt step hready hauto hhuman, hread]
  simp only [heof, if_true]

theorem runLoop_eof_at_prompt (w : World) (fuel : Nat) (rt : Runtime)
    (hready : Ready rt.planManager = none) (hhuman : rt.options.NoHuman = false)
    (text : String) (err : GoError)
    (hread : (readString rt).1 = ReadResult.failed text err) (heof : err.isEOF = true) :
    runLoop w (fuel + 1) rt = RunResult.returned none (readString rt).2 := by
  unfold runLoop
  have htick : executePlanIfReady w rt = TickResult.returned false none rt := by
    unfold executePlanIfReady
    rw [hready]
  rw [htick]
  simp only [hhuman, hread, heof, if_true, Bool.false_eq_true, if_false]

/-- C15, the code at the failing input: with the plan `a`, `b` stored, auto-approve
and no-human mode off and the input at its end, the read at the approval prompt
hits EOF and `Run` returns the error `io.EOF`; with an empty plan the read at the
main prompt hits EOF and `Run` returns nil. -/
theorem run_eof_at_approval_is_error (w : World) (fuel : Nat) :
    (∃ rt, Run w (fuel + 1) (runtimeAB interactiveOptions []) =
      RunResult.returned (some GoError.eof) rt) ∧
    (∃ rt, Run w (fuel + 1) (runtimeIdle interactiveOptions []) =
      RunResult.returned none rt) := by
  constructor
  · exact ⟨(readString (appendMessage w (runtimeAB interactiveOptions [])
      (ChatMessage.mk RoleSystem "system" "" "" 0 []))).2,
      runLoop_eof_at_approval w fuel
        (appendMessage w (runtimeAB interactiveOptions [])
          (ChatMessage.mk RoleSystem "system" "" "" 0 []))
        (pendingStep "a" (some [])) ready_planAB rfl rfl "" GoError.eof rfl rfl⟩
  · exact ⟨(readString (appendMessage w (runtimeIdle interactiveOptions [])
      (ChatMessage.mk RoleSystem "system" "" "" 0 []))).2,
      runLoop_eof_at_prompt w fuel
        (appendMessage w (runtimeIdle interactiveOptions [])
          (ChatMessage.mk RoleSystem "system" "" "" 0 []))
        rfl rfl "" GoError.eof rfl rfl⟩




/-! ## Snapshot and sharing -/

/-- C16, the code at the failing input. The store holds step `a` with exit code
0 and a nested plan step that waits for `y`. In the snapshot the step's own
`waitingForId` has a new backing array (cell 7, not cell 0), but the payload
copy still points to the store's exit code (cell 1) and the nested step still
points to the store's `waitingForId` array (cell 2). Writing 7 through the
snapshot's exit-code pointer and `z` into the nested step's array changes what a
later `Snapshot()` returns; writing into the step's own copied array does not. -/
theorem snapshot_shares_exit_code_and_nested_steps :
    (hSnapshot heapA managerA).2.map (fun s => s.WaitingForID) = [some 7] ∧
    (hSnapshot heapA managerA).2.map
        (fun s => (hPayloadOf (hSnapshot heapA managerA).1 s).map (fun p => p.ExitCode)) =
      [some (some 1)] ∧
    (hSnapshot heapA managerA).2.map
        (fun s => (hNestedPlan (hSnapshot heapA managerA).1 s).map (fun n => n.WaitingForID)) =
      [[some 2]] ∧
    (hSnapshot heapA managerA).2.map (hExitCode (hSnapshot heapA managerA).1) = [some 0] ∧
    (hSnapshot (heapWrite (hSnapshot heapA managerA).1 1 (Cell.int 7)) managerA).2.map
        (hExitCode (hSnapshot (heapWrite (hSnapshot heapA managerA).1 1 (Cell.int 7))
          managerA).1) = [some 7] ∧
    (hSnapshot heapA managerA).2.map
        (fun s => (hNestedPlan (hSnapshot heapA managerA).1 s).map
          (hWaiting (hSnapshot heapA managerA).1)) = [[some ["y"]]] ∧
    (hSnapshot (heapWrite (hSnapshot heapA managerA).1 2 (Cell.strings ["z"])) managerA).2.map
        (fun s => (hNestedPlan
          (hSnapshot (heapWrite (hSnapshot heapA managerA).1 2 (Cell.strings ["z"]))
            managerA).1 s).map
          (hWaiting (hSnapshot (heapWrite (hSnapshot heapA managerA).1 2
            (Cell.strings ["z"])) managerA).1)) = [[some ["z"]]] ∧
    (hSnapshot (heapWrite (hSnapshot heapA managerA).1 7 (Cell.strings ["w"])) managerA).2.map
        (hWaiting (hSnapshot (heapWrite (hSnapshot heapA managerA).1 7
          (Cell.strings ["w"])) managerA).1) = [some ["x"]] := by
  decide


/-! ### The options of a runtime -/

/-- The runtime `NewRuntime` builds has a non-empty plan reminder. -/
theorem newRuntime_reminder (opts : RuntimeOptions) (input : List ReadResult)
    (rt : Runtime) (h : NewRuntime opts input = Except.ok rt) :
    rt.options.PlanReminderMessage ≠ "" := by
  have hnorm : (normalizeOptions opts).PlanReminderMessage ≠ "" := by
    unfold normalizeOptions
    by_cases h1 : opts.SystemPrompt = "" <;> by_cases h2 : opts.PlanReminderMessage = "" <;>
      by_cases h3 : opts.NoHumanAutoMessage = "" <;> by_cases h4 : opts.UserPrompt = "" <;>
      simp [h1, h2, h3, h4, DefaultPlanReminder]
  unfold NewRuntime at h
  by_cases hk : (normalizeOptions opts).APIKey = ""
  · simp [hk] at h
  · by_cases hm : (normalizeOptions opts).Model = ""
    · simp [hk, hm] at h
    · simp only [hk, hm, if_false, Except.ok.injEq] at h
      rw [← h]
      exact hnorm

/-! ### Ticks whose command fails -/

/-- With auto-approve on, a tick whose `Execute` panics ends in a panic after
the call, with the plan store as it was. -/
theorem tick_panics (w : World) (rt : Runtime) (step : PlanStep) (message : String)
    (hready : Ready rt.planManager = some step) (hauto : rt.options.AutoApprove = true)
    (hE : Execute w step = ExecResult.panicked message) :
    executePlanIfReady w rt =
      TickResult.panicked { rt with trace := rt.trace ++ [Event.executed step] } := by
  rw [tick_auto w rt step hready hauto]
  unfold runStep
  rw [hE]

/-- C13, the code at the failing input. With auto-approve on and the plan `a`,
`b` stored, the tick runs the command of the ready step `a`. When the process
is killed for timeout, and when it exits with status 3, `Execute` panics in
`errors.As`, the tick ends in that panic, and the store it leaves is the store
it found: step `a` is still pending, not failed. Only when the process exits
with status 0 does the tick leave step `a` completed. -/
theorem timeout_leaves_step_pending :
    executePlanIfReady (sampleWorld (ProcOutcome.timedOut [] []) failingReply)
        (runtimeAB autoOptions []) =
      TickResult.panicked
        { runtimeAB autoOptions [] with
          trace := [Event.executed (pendingStep "a" (some []))] } ∧
    (Snapshot (executePlanIfReady (sampleWorld (ProcOutcome.timedOut [] []) failingReply)
        (runtimeAB autoOptions [])).rt.planManager).map PlanStep.Status =
      [PlanPending, PlanPending] ∧
    executePlanIfReady
        (sampleWorld (ProcOutcome.waited (some (GoError.exitError 3)) [] []) failingReply)
        (runtimeAB autoOptions []) =
      TickResult.panicked
        { runtimeAB autoOptions [] with
          trace := [Event.executed (pendingStep "a" (some []))] } ∧
    (Snapshot (executePlanIfReady
        (sampleWorld (ProcOutcome.waited (some (GoError.exitError 3)) [] []) failingReply)
        (runtimeAB autoOptions [])).rt.planManager).map PlanStep.Status =
      [PlanPending, PlanPending] ∧
    (Snapshot (executePlanIfReady
        (sampleWorld (ProcOutcome.waited none [] []) failingReply)
        (runtimeAB autoOptions [])).rt.planManager).map PlanStep.Status =
      [PlanCompleted, PlanPending] := by
  have htimeout := tick_panics (sampleWorld (ProcOutcome.timedOut [] []) failingReply)
    (runtimeAB autoOptions []) (pendingStep "a" (some [])) _ ready_planAB rfl
    (execute_timed_out _ _ [] [] (sample_not_blank _ _) rfl)
  have hexit := tick_panics
    (sampleWorld (ProcOutcome.waited (some (GoError.exitError 3)) [] []) failingReply)
    (runtimeAB autoOptions []) (pendingStep "a" (some [])) _ ready_planAB rfl
    (execute_wait_error _ _ (GoError.exitError 3) [] [] (sample_not_blank _ _) rfl)
  refine ⟨htimeout, ?_, hexit, ?_, ?_⟩
  · rw [htimeout]
    rfl
  · rw [hexit]
    rfl
  · rfl

end OpenAgent
